import Mathlib

set_option linter.unusedVariables false

namespace Kanban

/-- A task node, translated from `Task` in `src/types.ts`
(fields: `id`, `content`, `createdAt`, `children`, `isExpanded?`, `sourceId?`). -/
inductive Task : Type where
  | mk (id : String) (content : String) (createdAt : Nat)
       (children : List Task) (isExpanded : Option Bool) (sourceId : Option String)

def Task.id : Task → String
  | .mk i _ _ _ _ _ => i

def Task.children : Task → List Task
  | .mk _ _ _ ch _ _ => ch

/-- `countTasks`: total node count of a forest. -/
def countTasks : List Task → Nat
  | [] => 0
  | .mk _ _ _ ch _ _ :: ts => 1 + countTasks ch + countTasks ts

/-- `findTask` from `src/hooks/useAppData.ts` / `src/hooks/useDnd.ts`. -/
def findTask : List Task → String → Option Task
  | [], _ => none
  | .mk i c cr ch e s :: ts, target =>
    if i = target then some (.mk i c cr ch e s)
    else
      match findTask ch target with
      | some found => some found
      | none => findTask ts target

/-- Induction principle for task forests. -/
theorem forest_ind (P : List Task → Prop) (h0 : P [])
    (h1 : ∀ i c cr ch e s ts, P ch → P ts → P (Task.mk i c cr ch e s :: ts)) :
    ∀ ts, P ts
  | [] => h0
  | .mk i c cr ch e s :: ts =>
    h1 i c cr ch e s ts (forest_ind P h0 h1 ch) (forest_ind P h0 h1 ts)

def Task.content : Task → String
  | .mk _ c _ _ _ _ => c

def Task.createdAt : Task → Nat
  | .mk _ _ cr _ _ _ => cr

def Task.isExpanded : Task → Option Bool
  | .mk _ _ _ _ e _ => e

def Task.sourceId : Task → Option String
  | .mk _ _ _ _ _ s => s

/-- `removeTask` from `src/hooks/useAppData.ts`: drop every node whose id
matches (together with its whole subtree), rebuild the children of every
surviving node (`tasks.filter(t => t.id !== id).map(t => ({...t, children:
removeTask(t.children, id)}))`, expressed element-wise). -/
def removeTask : List Task → String → List Task
  | [], _ => []
  | .mk i c cr ch e s :: ts, target =>
    if i = target then removeTask ts target
    else .mk i c cr (removeTask ch target) e s :: removeTask ts target

/-- `countLeaves` from `src/hooks/useAppData.ts` / `src/hooks/useDnd.ts`:
a node with no children counts 1, otherwise it contributes the leaf count
of its children. -/
def countLeaves : List Task → Nat
  | [] => 0
  | .mk _ _ _ ch _ _ :: ts =>
    (if ch.isEmpty then 1 else countLeaves ch) + countLeaves ts

/-- `isDescendant` from `src/hooks/useDnd.ts`. -/
def isDescendant (tasks : List Task) (sourceId targetId : String) : Bool :=
  match findTask tasks sourceId with
  | none => false
  | some source => (findTask source.children targetId).isSome

/-- `findParent` from `src/hooks/useDnd.ts`. -/
def findParent : List Task → String → Option Task
  | [], _ => none
  | .mk i c cr ch e s :: ts, childId =>
    if ch.any (fun t => t.id = childId) then some (.mk i c cr ch e s)
    else
      match findParent ch childId with
      | some found => some found
      | none => findParent ts childId

/-- `findMatchingParent` from `src/hooks/useDnd.ts`: depth-first, per node
first the `sourceId == identity` test, then the `id == identity` test. -/
def findMatchingParent : List Task → String → Option Task
  | [], _ => none
  | .mk i c cr ch e s :: ts, identity =>
    if s = some identity then some (.mk i c cr ch e s)
    else if i = identity then some (.mk i c cr ch e s)
    else
      match findMatchingParent ch identity with
      | some found => some found
      | none => findMatchingParent ts identity

/-- All ids of a forest in depth-first (pre-)order. -/
def idsOf : List Task → List String
  | [] => []
  | .mk i _ _ ch _ _ :: ts => i :: (idsOf ch ++ idsOf ts)

/-- All `content` fields of a forest in depth-first (pre-)order. -/
def contentsOf : List Task → List String
  | [] => []
  | .mk _ c _ ch _ _ :: ts => c :: (contentsOf ch ++ contentsOf ts)

/-- All `createdAt` fields of a forest in depth-first (pre-)order. -/
def createdAtsOf : List Task → List Nat
  | [] => []
  | .mk _ _ cr _ _ _ :: ts => cr :: (createdAtsOf ts)

/-- Pure tree shapes, used to state that an operation preserves the
child structure of a forest. -/
inductive Shp : Type where
  | mk (children : List Shp)

def shapeOf : List Task → List Shp
  | [] => []
  | .mk _ _ _ ch _ _ :: ts => .mk (shapeOf ch) :: shapeOf ts

/-- `x` occurs somewhere (at any depth) in the forest. -/
inductive Occurs (x : Task) : List Task → Prop where
  | here {ts : List Task} : x ∈ ts → Occurs x ts
  | inside {ts : List Task} {t : Task} : t ∈ ts → Occurs x t.children → Occurs x ts

-- ---------------------------------------------------------------------------
-- Columns, projects, application data (src/types.ts)
-- ---------------------------------------------------------------------------

/-- `ColumnId` from `src/types.ts`. -/
inductive ColumnId : Type where
  | backlog | todo | inProgress | done
deriving DecidableEq, Repr

/-- The string key of a column, as used for DOM ids and `Object.keys`. -/
def ColumnId.key : ColumnId → String
  | .backlog => "backlog"
  | .todo => "todo"
  | .inProgress => "in-progress"
  | .done => "done"

/-- `Object.keys(columns)` in the literal insertion order of
`{ backlog, todo, 'in-progress', done }`. -/
def colKeys : List ColumnId := [.backlog, .todo, .inProgress, .done]

/-- Membership of a raw DOM id in `Object.keys(columns)`. -/
def keyToCol (s : String) : Option ColumnId :=
  if s = "backlog" then some .backlog
  else if s = "todo" then some .todo
  else if s = "in-progress" then some .inProgress
  else if s = "done" then some .done
  else none

/-- The per-project column map (`columns: { [key in ColumnId]: Task[] }`). -/
structure ColMap where
  backlog : List Task
  todo : List Task
  inProgress : List Task
  done : List Task

def colGet (cols : ColMap) : ColumnId → List Task
  | .backlog => cols.backlog
  | .todo => cols.todo
  | .inProgress => cols.inProgress
  | .done => cols.done

def colSet (cols : ColMap) : ColumnId → List Task → ColMap
  | .backlog, ts => { cols with backlog := ts }
  | .todo, ts => { cols with todo := ts }
  | .inProgress, ts => { cols with inProgress := ts }
  | .done, ts => { cols with done := ts }

/-- `Object.values(columns).flat()` in key order. -/
def allTasksOf (cols : ColMap) : List Task :=
  cols.backlog ++ cols.todo ++ cols.inProgress ++ cols.done

/-- All ids present anywhere in a column map. -/
def colIds (cols : ColMap) : List String := idsOf (allTasksOf cols)

/-- `Project` from `src/types.ts` (the fields the verified operations read). -/
structure Project where
  id : String
  name : String
  description : String
  wipLimit : Nat
  columns : ColMap

/-- `theme: 'light' | 'dark'`. -/
inductive Theme : Type where
  | light | dark
deriving DecidableEq

/-- `AppData` from `src/types.ts`. -/
structure AppData where
  projects : List Project
  activeProjectId : Option String
  theme : Theme

-- ---------------------------------------------------------------------------
-- Drag state and classifier (src/hooks/useDnd.ts)
-- ---------------------------------------------------------------------------

inductive DragType : Type where
  | nest | insert
deriving DecidableEq, Repr

inductive DragPos : Type where
  | top | bottom
deriving DecidableEq, Repr

/-- `DragState` from `src/types.ts`: `{ type, targetId, position? }`. -/
structure DragState where
  type : DragType
  targetId : String
  position : Option DragPos
deriving DecidableEq, Repr

/-- Is `pat` a prefix of `s` (character lists)? Models the scan JS
`String.prototype.replace` performs at one position. -/
def matchesAt : List Char → List Char → Bool
  | [], _ => true
  | _ :: _, [] => false
  | p :: ps, c :: cs => p = c && matchesAt ps cs

/-- JS `s.replace(pat, '')` for a plain-string `pat`: remove the first
occurrence of `pat` (if any), scanning left to right. -/
def removeFirstOcc (pat : List Char) : List Char → List Char
  | [] => []
  | c :: cs =>
    if matchesAt pat (c :: cs) then (c :: cs).drop pat.length
    else c :: removeFirstOcc pat cs

/-- JS `s.endsWith(suffix)` (character-list model). -/
def strEndsWith (s suffix : String) : Bool :=
  matchesAt suffix.data.reverse s.data.reverse

/-- `getRealId` from `src/hooks/useDnd.ts`: strip a `-top` / `-mid` / `-bot`
zone marker (`id.replace('-top', '')` removes the first occurrence). -/
def getRealId (id : String) : String :=
  if strEndsWith id "-top" then String.mk (removeFirstOcc "-top".data id.data)
  else if strEndsWith id "-mid" then String.mk (removeFirstOcc "-mid".data id.data)
  else if strEndsWith id "-bot" then String.mk (removeFirstOcc "-bot".data id.data)
  else id

/-- The inputs of a drag-over tick that `onDragOver` reads: the dragged id,
the hovered droppable's raw id (none when over nothing), the hovered
rectangle's top and the dragged rectangle's vertical center (geometry is
consulted only in the column branch). -/
structure DragOverEvent where
  activeId : String
  overId : Option String
  overTop : Int
  activeCenterY : Int

/-- `onDragOver` from `src/hooks/useDnd.ts`: the drag-intent classifier.
Returns the `DragState` that the handler stores (`none` models
`setDragState(null)`). -/
def onDragOver (cols : ColMap) (ev : DragOverEvent) : Option DragState :=
  match ev.overId with
  | none => none
  | some rawOverId =>
    let activeId := ev.activeId
    let overId := getRealId rawOverId
    if activeId = overId then none
    else
      let allTasks := allTasksOf cols
      if isDescendant allTasks activeId overId then none
      else
        match keyToCol rawOverId with
        | some columnId =>
          let tasksInColumn := colGet cols columnId
          let headerThreshold := ev.overTop + 50
          if ev.activeCenterY < headerThreshold then
            some ⟨.insert, rawOverId, some .top⟩
          else
            match tasksInColumn.getLast? with
            | some lastTask =>
              if lastTask.id ≠ activeId then some ⟨.insert, lastTask.id, some .bottom⟩
              else some ⟨.insert, rawOverId, some .bottom⟩
            | none => some ⟨.insert, rawOverId, some .bottom⟩
        | none =>
          if strEndsWith rawOverId "-top" then some ⟨.insert, overId, some .top⟩
          else if strEndsWith rawOverId "-mid" then some ⟨.nest, overId, none⟩
          else if strEndsWith rawOverId "-bot" then some ⟨.insert, overId, some .bottom⟩
          else some ⟨.nest, overId, none⟩

-- ---------------------------------------------------------------------------
-- Mutation engine (onDragEnd, src/hooks/useDnd.ts)
-- ---------------------------------------------------------------------------

/-- The `removeFromTree` / `removeRecursive` closures of `onDragEnd`
(`src/hooks/useDnd.ts`) and `moveToColumn` (`src/hooks/useAppData.ts`):
filter out the node with the given id, capturing it in `taskToMove`
(a later assignment overwrites an earlier one). -/
def removeCapture : List Task → String → List Task × Option Task
  | [], _ => ([], none)
  | .mk i c cr ch e s :: ts, target =>
    if i = target then
      let r := removeCapture ts target
      (r.fst, r.snd <|> some (.mk i c cr ch e s))
    else
      let rc := removeCapture ch target
      let rt := removeCapture ts target
      (.mk i c cr rc.fst e s :: rt.fst, rt.snd <|> rc.snd)

/-- The removal loop applied to every column
(`Object.keys(newCols).forEach(k => newCols[k] = removeFromTree(newCols[k]))`);
the shared `taskToMove` variable keeps the last capture in key order. -/
def removeCaptureCols (cols : ColMap) (target : String) : ColMap × Option Task :=
  let b := removeCapture cols.backlog target
  let t := removeCapture cols.todo target
  let p := removeCapture cols.inProgress target
  let d := removeCapture cols.done target
  (⟨b.fst, t.fst, p.fst, d.fst⟩, d.snd <|> p.snd <|> t.snd <|> b.snd)

/-- The source-column scan of `onDragEnd`: for each key in order, if the
column contains the id, `sourceColumnId = k` (a later column overwrites). -/
def sourceColumnOf (cols : ColMap) (aid : String) : Option ColumnId :=
  let g := fun (acc : Option ColumnId) (k : ColumnId) =>
    if (findTask (colGet cols k) aid).isSome then some k else acc
  g (g (g (g none .backlog) .todo) .inProgress) .done

/-- The duplicate built when Ctrl is held over a top-level task:
`{ ...sourceTask, id: nanoid(), children: [], sourceId: sourceTask.sourceId || sourceTask.id }`. -/
def duplicateOf (freshId : String) : Task → Task
  | .mk i c cr _ e s => .mk freshId c cr [] e (s <|> some i)

/-- The synthesized grouping parent:
`{ ...originalParent, id: nanoid(), sourceId: identityId, children: [taskToMove] }`. -/
def parentCopyOf (freshId : String) (op : Task) (identity : String) (child : Task) : Task :=
  match op with
  | .mk _ c cr _ e _ => .mk freshId c cr [child] e (some identity)

/-- `findMatchingParent` followed by `matchingParent.children.push(taskToMove);
matchingParent.isExpanded = true`, as one pure rebuild: push `child` into the
first node (same depth-first order, `sourceId` test before `id` test) whose
identity matches; the Bool reports whether a node matched. -/
def groupInto : List Task → String → Task → List Task × Bool
  | [], _, _ => ([], false)
  | .mk i c cr ch e s :: ts, identity, child =>
    if s = some identity ∨ i = identity then
      (.mk i c cr (ch ++ [child]) (some true) s :: ts, true)
    else
      let rc := groupInto ch identity child
      if rc.snd then (.mk i c cr rc.fst e s :: ts, true)
      else
        let rt := groupInto ts identity child
        (.mk i c cr ch e s :: rt.fst, rt.snd)

/-- The non-grouping part of `findAndHandle`: at the first node (depth-first)
whose id is `targetId`, either push `tm` as a last child and force-expand
(`nest`), or splice `tm` before/after that node in its sibling list
(`insert`); the Bool reports whether the target was found. -/
def nestOrInsert (targetId : String) (ty : DragType) (pos : Option DragPos) (tm : Task) :
    List Task → List Task × Bool
  | [] => ([], false)
  | .mk i c cr ch e s :: ts =>
    if i = targetId then
      if ty = .nest then (.mk i c cr (ch ++ [tm]) (some true) s :: ts, true)
      else
        if pos = some .top then (tm :: .mk i c cr ch e s :: ts, true)
        else (.mk i c cr ch e s :: tm :: ts, true)
    else
      let rc := nestOrInsert targetId ty pos tm ch
      if rc.snd then (.mk i c cr rc.fst e s :: ts, true)
      else
        let rt := nestOrInsert targetId ty pos tm ts
        (.mk i c cr ch e s :: rt.fst, rt.snd)

/-- `findAndHandle` on one column: if the column contains `targetId`, apply
either the preserve-context grouping (Ctrl + had a parent + cross-column —
the grouping searches and mutates the whole column) or the literal
nest/insert at the target. -/
def handleOneColumn (cols : ColMap) (k : ColumnId) (targetId : String) (ty : DragType)
    (pos : Option DragPos) (tm : Task) (ctrl : Bool) (originalParent : Option Task)
    (sourceColumnId : Option ColumnId) (freshId : String) : ColMap × Bool :=
  let colTasks := colGet cols k
  if (findTask colTasks targetId).isSome then
    let isCrossColumn := match sourceColumnId with
      | some sc => sc ≠ k
      | none => false
    match originalParent with
    | some op =>
      if ctrl && isCrossColumn then
        let identity := op.sourceId.getD op.id
        let r := groupInto colTasks identity tm
        if r.snd then (colSet cols k r.fst, true)
        else (colSet cols k (colTasks ++ [parentCopyOf freshId op identity tm]), true)
      else (colSet cols k (nestOrInsert targetId ty pos tm colTasks).fst, true)
    | none => (colSet cols k (nestOrInsert targetId ty pos tm colTasks).fst, true)
  else (cols, false)

/-- The `forEach` over the four columns with the `handled` short-circuit. -/
def handleAllColumns (cols : ColMap) (targetId : String) (ty : DragType)
    (pos : Option DragPos) (tm : Task) (ctrl : Bool) (originalParent : Option Task)
    (sourceColumnId : Option ColumnId) (freshId : String) : ColMap × Bool :=
  let r1 := handleOneColumn cols .backlog targetId ty pos tm ctrl originalParent sourceColumnId freshId
  if r1.snd then r1 else
    let r2 := handleOneColumn r1.fst .todo targetId ty pos tm ctrl originalParent sourceColumnId freshId
    if r2.snd then r2 else
      let r3 := handleOneColumn r2.fst .inProgress targetId ty pos tm ctrl originalParent sourceColumnId freshId
      if r3.snd then r3 else
        handleOneColumn r3.fst .done targetId ty pos tm ctrl originalParent sourceColumnId freshId

/-- `onDragEnd` from `src/hooks/useDnd.ts`: the drag-end commit. Inputs are
the current columns, the project's `wipLimit`, the dragged id, whether the
event carried an `over` target, the final classifier `DragState`, the Ctrl
flag, and the id `nanoid()` would mint. Returns `some newCols` when the
handler calls `updateProjectColumns`, `none` when it returns early without
committing. -/
def onDragEnd (cols : ColMap) (wipLimit : Nat) (activeId : String) (overPresent : Bool)
    (finalDragState : Option DragState) (ctrlKey : Bool) (freshId : String) : Option ColMap :=
  if !overPresent then none
  else
    let allTasks := allTasksOf cols
    let originalParent := findParent allTasks activeId
    let sourceColumnId := sourceColumnOf cols activeId
    let isTopLevel := originalParent.isNone
    let isDuplicateOperation := ctrlKey && isTopLevel
    let prepared : ColMap × Option Task :=
      if isDuplicateOperation then
        match findTask allTasks activeId with
        | some sourceTask => (cols, some (duplicateOf freshId sourceTask))
        | none => (cols, none)
      else removeCaptureCols cols activeId
    let newCols := prepared.fst
    match prepared.snd with
    | none => none
    | some taskToMove =>
      match finalDragState with
      | some ds =>
        match keyToCol ds.targetId with
        | some targetCol =>
          let isCrossColumn := match sourceColumnId with
            | some sc => sc ≠ targetCol
            | none => false
          let grouped : Option ColMap :=
            match originalParent with
            | some op =>
              if ctrlKey && isCrossColumn then
                let identity := op.sourceId.getD op.id
                let colTasks := colGet newCols targetCol
                let r := groupInto colTasks identity taskToMove
                if r.snd then some (colSet newCols targetCol r.fst)
                else some (colSet newCols targetCol
                  (colTasks ++ [parentCopyOf freshId op identity taskToMove]))
              else none
            | none => none
          match grouped with
          | some g => some g
          | none =>
            if ds.position = some .top then
              some (colSet newCols targetCol (taskToMove :: colGet newCols targetCol))
            else
              -- the source computes `countLeaves(newCols['in-progress']) +
              -- incomingLeaves > wipLimit` here for `in-progress` targets, but
              -- the `if` body is empty, so the drop commits regardless
              some (colSet newCols targetCol (colGet newCols targetCol ++ [taskToMove]))
        | none =>
          let r := handleAllColumns newCols ds.targetId ds.type ds.position taskToMove
            ctrlKey originalParent sourceColumnId freshId
          if r.snd then some r.fst
          else some (colSet r.fst .backlog (colGet r.fst .backlog ++ [taskToMove]))
      | none =>
        some (colSet newCols .backlog (colGet newCols .backlog ++ [taskToMove]))

-- ---------------------------------------------------------------------------
-- CRUD layer (src/hooks/useAppData.ts)
-- ---------------------------------------------------------------------------

/-- The task lookup inside `moveToColumn` / `cloneTask`: `forEach` over the
keys, `if (find) foundTask = find` — a later column's find overwrites. -/
def findTaskLastCols (cols : ColMap) (target : String) : Option Task :=
  let f := fun (acc : Option Task) (ts : List Task) =>
    match findTask ts target with
    | some t => some t
    | none => acc
  f (f (f (f none cols.backlog) cols.todo) cols.inProgress) cols.done

/-- `moveToColumn` from `src/hooks/useAppData.ts`, restricted to the one
project whose id matched (the body of the `projects.map` callback): the WIP
admission check for `in-progress` targets, then remove-and-append. -/
def moveToColumnProj (p : Project) (taskId : String) (targetColId : ColumnId) : Project :=
  let foundTask := findTaskLastCols p.columns taskId
  let wipBlocked : Bool :=
    match targetColId, foundTask with
    | .inProgress, some ft =>
      decide (countLeaves p.columns.inProgress
        + (if ft.children.isEmpty then 1 else countLeaves ft.children) > p.wipLimit)
    | _, _ => false
  if wipBlocked then p
  else
    let r := removeCaptureCols p.columns taskId
    match r.snd with
    | some taskToMove =>
      { p with columns := colSet r.fst targetColId (colGet r.fst targetColId ++ [taskToMove]) }
    | none => { p with columns := r.fst }

/-- `moveToColumn` on the whole `AppData` (`projects.map`, untouched
projects returned as-is). -/
def moveToColumn (d : AppData) (projectId taskId : String) (targetColId : ColumnId) : AppData :=
  { d with projects := d.projects.map fun p =>
      if p.id = projectId then moveToColumnProj p taskId targetColId else p }

mutual

/-- `deepClone` inside `cloneTask` (`src/hooks/useAppData.ts`):
`{ ...t, id: nanoid(), content: t.content + ' (Copy)', children:
t.children.map(deepClone) }`. `nanoid()` is modelled by `gen` applied to a
running counter, allocated in the preorder the object literal evaluates in. -/
def deepClone (gen : Nat → String) : Task → Nat → Task × Nat
  | .mk _ c cr ch e s, n =>
    let r := deepCloneList gen ch (n + 1)
    (.mk (gen n) (c ++ " (Copy)") cr r.fst e s, r.snd)

def deepCloneList (gen : Nat → String) : List Task → Nat → List Task × Nat
  | [], n => ([], n)
  | t :: ts, n =>
    let r1 := deepClone gen t n
    let r2 := deepCloneList gen ts r1.snd
    (r1.fst :: r2.fst, r2.snd)

end

/-- `cloneTask` from `src/hooks/useAppData.ts`, restricted to the matched
project: find the task (later columns overwrite), deep-clone it, then append
the clone at top level of every column that contains the original id. -/
def cloneTaskProj (gen : Nat → String) (p : Project) (taskId : String) : Project :=
  let foundClone :=
    let f := fun (acc : Option Task) (ts : List Task) =>
      match findTask ts taskId with
      | some t => some (deepClone gen t 0).fst
      | none => acc
    f (f (f (f none p.columns.backlog) p.columns.todo) p.columns.inProgress) p.columns.done
  match foundClone with
  | none => p
  | some clone =>
    let app := fun (ts : List Task) => if (findTask ts taskId).isSome then ts ++ [clone] else ts
    { p with columns :=
        ⟨app p.columns.backlog, app p.columns.todo, app p.columns.inProgress, app p.columns.done⟩ }

/-- `deleteProject` from `src/hooks/useAppData.ts`. -/
def deleteProject (d : AppData) (projectId : String) : AppData :=
  let remaining := d.projects.filter (fun p => p.id ≠ projectId)
  match remaining with
  | [] => d
  | r :: rs =>
    { d with projects := r :: rs,
             activeProjectId :=
               if d.activeProjectId = some projectId then some r.id else d.activeProjectId }

-- ---------------------------------------------------------------------------
-- YAML apply (src/services/yamlService.ts, src/components/modals/YamlModal.tsx)
-- ---------------------------------------------------------------------------

/-- A YAML document value as `js-yaml`'s `load` returns it (`undefined` for
an empty document is folded into `null`: both are falsy and rejected the
same way by `handleApply`). -/
inductive Yaml : Type where
  | null
  | bool (b : Bool)
  | num (n : Int)
  | str (s : String)
  | arr (items : List Yaml)
  | obj (fields : List (String × Yaml))

/-- JS truthiness of a loaded document (`if (parsed)`). -/
def Yaml.truthy : Yaml → Bool
  | .null => false
  | .bool b => b
  | .num n => n ≠ 0
  | .str s => s ≠ ""
  | .arr _ => true
  | .obj _ => true

/-- `parseYaml` from `src/services/yamlService.ts`: `yaml.load` inside
`try/catch`, `null` on a parse error. The loader itself is external
(`js-yaml`), passed in as a function that either returns a document or
throws. -/
def parseYaml (load : String → Except String Yaml) (yamlString : String) : Option Yaml :=
  match load yamlString with
  | .ok v => some v
  | .error _ => none

/-- `handleApply` from `src/components/modals/YamlModal.tsx`: parse, and only
a truthy parse replaces the state (`setData(parsed)`); otherwise the state is
kept and the alert is shown. Returns the new state and whether it was
applied. -/
def handleApply (load : String → Except String Yaml) (state : Yaml) (yamlContent : String) :
    Yaml × Bool :=
  match parseYaml load yamlContent with
  | some parsed => if parsed.truthy then (parsed, true) else (state, false)
  | none => (state, false)

-- ---------------------------------------------------------------------------
-- Save scheduler (doSave, src/hooks/useAppData.ts)
-- ---------------------------------------------------------------------------

/-- The save scheduler's state: the `isSaving` / `pendingSave` refs, the
multiset of outstanding server requests (with the data each carries), the
latest in-memory data (`latestData`), and whether a retrigger timeout is
scheduled (`setTimeout(() => doSave(), 100)`). -/
structure SaveState where
  isSaving : Bool
  pendingSave : Bool
  inFlight : List Nat
  latest : Nat
  retriggerScheduled : Bool

def initSave : SaveState :=
  { isSaving := false, pendingSave := false, inFlight := [], latest := 0,
    retriggerScheduled := false }

/-- Events of the scheduler: a data edit (updates `latestData`), a `doSave`
invocation from the debounce timer, the firing of a scheduled retrigger
timeout (which runs `doSave`), and the resolution of the in-flight request
(the `finally` block). -/
inductive SaveEv : Type where
  | edit (d : Nat)
  | request
  | retrigger
  | resolve

/-- The body of `doSave` up to the `await`: if `isSaving`, only
`pendingSave = true`; else `isSaving = true; pendingSave = false` and the
request is sent carrying `latestData.current`. -/
def doSaveStep (s : SaveState) : SaveState :=
  if s.isSaving then { s with pendingSave := true }
  else { s with isSaving := true, pendingSave := false, inFlight := s.inFlight ++ [s.latest] }

/-- One scheduler step. `resolve` is the `finally` block: `isSaving = false`,
the request leaves the wire, and if `pendingSave` is set a retrigger timeout
is scheduled (`setTimeout(() => doSave(), 100)`; `pendingSave` itself is only
cleared by the next `doSave` run). `retrigger` is that timeout firing. -/
def saveStep (s : SaveState) : SaveEv → SaveState
  | .edit d => { s with latest := d }
  | .request => doSaveStep s
  | .retrigger =>
    if s.retriggerScheduled then doSaveStep { s with retriggerScheduled := false } else s
  | .resolve =>
    match s.inFlight with
    | [] => s
    | _ :: rest =>
      { s with isSaving := false, inFlight := rest,
               retriggerScheduled := s.pendingSave || s.retriggerScheduled }

def saveRun (evs : List SaveEv) : SaveState := evs.foldl saveStep initSave

/-- The scheduler's inductive invariant: at most one request on the wire,
and `isSaving` tracks exactly whether one is. -/
def saveInv (s : SaveState) : Prop :=
  s.inFlight.length ≤ 1 ∧ (s.isSaving = true ↔ s.inFlight ≠ [])

theorem saveInv_doSaveStep (s : SaveState) (h : saveInv s) : saveInv (doSaveStep s) := by
  obtain ⟨h1, h2⟩ := h
  unfold doSaveStep
  by_cases hs : s.isSaving = true
  · have hfne : s.inFlight ≠ [] := h2.mp hs
    simp [hs, saveInv, hfne, h1]
  · have : s.inFlight = [] := by
      by_contra hne
      exact hs (h2.mpr hne)
    simp [hs, saveInv, this]

theorem saveInv_step (s : SaveState) (ev : SaveEv) (h : saveInv s) : saveInv (saveStep s ev) := by
  obtain ⟨h1, h2⟩ := h
  cases ev with
  | edit d => exact ⟨h1, h2⟩
  | request => exact saveInv_doSaveStep s ⟨h1, h2⟩
  | retrigger =>
    by_cases hr : s.retriggerScheduled = true
    · simpa [saveStep, hr] using
        saveInv_doSaveStep { s with retriggerScheduled := false } ⟨h1, h2⟩
    · simp only [saveStep, hr]
      simp only [Bool.false_eq_true, if_false]
      exact ⟨h1, h2⟩
  | resolve =>
    cases hf : s.inFlight with
    | nil => simp only [saveStep, hf]; exact ⟨h1, h2⟩
    | cons x rest =>
      rw [hf] at h1
      simp only [saveStep, hf, saveInv, List.length_cons] at *
      constructor
      · omega
      · constructor
        · intro hfalse
          cases hfalse
        · intro hne
          exfalso
          apply hne
          cases rest with
          | nil => rfl
          | cons y ys => simp at h1

theorem saveInv_foldl : ∀ evs : List SaveEv, ∀ s, saveInv s → saveInv (evs.foldl saveStep s) := by
  intro evs
  induction evs with
  | nil => intro s h; exact h
  | cons e es ih => intro s h; exact ih (saveStep s e) (saveInv_step s e h)

theorem saveInv_run (evs : List SaveEv) : saveInv (saveRun evs) := by
  apply saveInv_foldl
  constructor
  · simp [initSave]
  · simp [initSave]

-- ---------------------------------------------------------------------------
-- Basic lemmas about the tree utilities
-- ---------------------------------------------------------------------------

theorem idsOf_append (ys : List Task) : ∀ xs, idsOf (xs ++ ys) = idsOf xs ++ idsOf ys := by
  apply forest_ind
  · simp [idsOf]
  · intro i c cr ch e s ts _ ih
    simp [idsOf, ih]

theorem findTask_isSome : ∀ ts, ∀ i, (findTask ts i).isSome ↔ i ∈ idsOf ts := by
  apply forest_ind
  · simp [findTask, idsOf]
  · intro hi c cr ch e s ts ihc iht i
    by_cases h : hi = i
    · subst h
      simp [findTask, idsOf]
    · simp only [findTask, idsOf, if_neg h]
      rcases hf : findTask ch i with _ | t
      · have : i ∉ idsOf ch := by
          intro hmem
          have := (ihc i).mpr hmem
          rw [hf] at this
          simp at this
        simp [iht, this, List.mem_cons, List.mem_append, h, Ne.symm h]
      · have : i ∈ idsOf ch := by
          have := (ihc i).mp (by rw [hf]; rfl)
          exact this
        simp [List.mem_cons, List.mem_append, this]

theorem findTask_eq_none (ts : List Task) (i : String) :
    findTask ts i = none ↔ i ∉ idsOf ts := by
  rw [← findTask_isSome ts i]
  rcases h : findTask ts i with _ | t <;> simp

theorem findTask_id : ∀ ts, ∀ i t, findTask ts i = some t → t.id = i := by
  apply forest_ind
  · simp [findTask]
  · intro hi c cr ch e s ts ihc iht i t
    by_cases h : hi = i
    · subst h
      simp [findTask]
      intro he
      rw [← he]
      rfl
    · simp only [findTask, if_neg h]
      rcases hf : findTask ch i with _ | u
      · exact iht i t
      · intro he
        cases he
        exact ihc i t hf

theorem removeCapture_fst : ∀ ts, ∀ i, (removeCapture ts i).fst = removeTask ts i := by
  apply forest_ind
  · simp [removeCapture, removeTask]
  · intro hi c cr ch e s ts ihc iht i
    by_cases h : hi = i
    · simp [removeCapture, removeTask, h, iht]
    · simp [removeCapture, removeTask, h, ihc, iht]

theorem removeTask_not_mem : ∀ ts, ∀ i, i ∉ idsOf ts → removeTask ts i = ts := by
  apply forest_ind
  · simp [removeTask]
  · intro hi c cr ch e s ts ihc iht i hmem
    simp only [idsOf, List.mem_cons, List.mem_append] at hmem
    push_neg at hmem
    obtain ⟨h1, h2, h3⟩ := hmem
    simp [removeTask, Ne.symm h1, ihc i h2, iht i h3]

theorem removeCapture_snd_none : ∀ ts, ∀ i, i ∉ idsOf ts → (removeCapture ts i).snd = none := by
  apply forest_ind
  · simp [removeCapture]
  · intro hi c cr ch e s ts ihc iht i hmem
    simp only [idsOf, List.mem_cons, List.mem_append] at hmem
    push_neg at hmem
    obtain ⟨h1, h2, h3⟩ := hmem
    simp [removeCapture, Ne.symm h1, ihc i h2, iht i h3]

theorem findTask_removeTask_self : ∀ ts, ∀ i, findTask (removeTask ts i) i = none := by
  apply forest_ind
  · simp [removeTask, findTask]
  · intro hi c cr ch e s ts ihc iht i
    by_cases h : hi = i
    · simp [removeTask, h, iht]
    · simp [removeTask, h, findTask, ihc, iht]

theorem countTasks_removeTask : ∀ ts, ∀ i t, (idsOf ts).Nodup → findTask ts i = some t →
    countTasks (removeTask ts i) + countTasks [t] = countTasks ts := by
  apply forest_ind
  · simp [findTask]
  · intro hi c cr ch e s ts ihc iht i t hnod hfind
    simp only [idsOf, List.nodup_cons, List.mem_append, List.nodup_append] at hnod
    obtain ⟨hni, hch, hts, hdisj⟩ := hnod
    push_neg at hni
    by_cases h : hi = i
    · subst h
      have ht : Task.mk hi c cr ch e s = t := by simpa [findTask] using hfind
      rw [removeTask, if_pos rfl, removeTask_not_mem ts hi hni.2, ← ht]
      simp [countTasks]
      omega
    · rw [removeTask, if_neg h]
      have hfind' : (match findTask ch i with
          | some found => some found
          | none => findTask ts i) = some t := by
        simpa [findTask, h] using hfind
      cases hf : findTask ch i with
      | none =>
        rw [hf] at hfind'
        have hfts : findTask ts i = some t := by simpa using hfind'
        have hnotch : i ∉ idsOf ch := (findTask_eq_none ch i).mp hf
        rw [removeTask_not_mem ch i hnotch]
        have := iht i t hts hfts
        simp only [countTasks] at *
        omega
      | some u =>
        rw [hf] at hfind'
        have hu : u = t := by simpa using hfind'
        subst hu
        have hinch : i ∈ idsOf ch := (findTask_isSome ch i).mp (by rw [hf]; rfl)
        have hnotts : i ∉ idsOf ts := fun hm => hdisj hinch hm
        rw [removeTask_not_mem ts i hnotts]
        have := ihc i u hch hf
        simp only [countTasks] at *
        omega

theorem idsOf_removeTask_mem : ∀ ts, ∀ i t j, (idsOf ts).Nodup → findTask ts i = some t →
    j ∈ idsOf ts → j ∉ idsOf [t] → j ∈ idsOf (removeTask ts i) := by
  apply forest_ind
  · simp [findTask]
  · intro hi c cr ch e s ts ihc iht i t j hnod hfind hj hjt
    simp only [idsOf, List.nodup_cons, List.mem_append, List.nodup_append] at hnod
    obtain ⟨hni, hch, hts, hdisj⟩ := hnod
    push_neg at hni
    by_cases h : hi = i
    · subst h
      have ht : Task.mk hi c cr ch e s = t := by simpa [findTask] using hfind
      rw [removeTask, if_pos rfl, removeTask_not_mem ts hi hni.2]
      rw [← ht] at hjt
      simp only [idsOf, List.append_nil, List.mem_cons, List.mem_append] at hjt hj
      push_neg at hjt
      rcases hj with rfl | hj | hj
      · exact absurd rfl hjt.1
      · exact absurd hj hjt.2
      · exact hj
    · rw [removeTask, if_neg h]
      have hfind' : (match findTask ch i with
          | some found => some found
          | none => findTask ts i) = some t := by
        simpa [findTask, h] using hfind
      simp only [idsOf, List.mem_cons, List.mem_append] at hj ⊢
      cases hf : findTask ch i with
      | none =>
        rw [hf] at hfind'
        have hfts : findTask ts i = some t := by simpa using hfind'
        have hnotch : i ∉ idsOf ch := (findTask_eq_none ch i).mp hf
        rw [removeTask_not_mem ch i hnotch]
        rcases hj with rfl | hj | hj
        · exact Or.inl rfl
        · exact Or.inr (Or.inl hj)
        · exact Or.inr (Or.inr (iht i t j hts hfts hj hjt))
      | some u =>
        rw [hf] at hfind'
        have hu : u = t := by simpa using hfind'
        subst hu
        have hinch : i ∈ idsOf ch := (findTask_isSome ch i).mp (by rw [hf]; rfl)
        have hnotts : i ∉ idsOf ts := fun hm => hdisj hinch hm
        rw [removeTask_not_mem ts i hnotts]
        rcases hj with rfl | hj | hj
        · exact Or.inl rfl
        · exact Or.inr (Or.inl (ihc i u j hch hf hj hjt))
        · exact Or.inr (Or.inr hj)

theorem removeCapture_snd : ∀ ts, ∀ i t, (idsOf ts).Nodup → findTask ts i = some t →
    (removeCapture ts i).snd = some t := by
  apply forest_ind
  · simp [findTask]
  · intro hi c cr ch e s ts ihc iht i t hnod hfind
    simp only [idsOf, List.nodup_cons, List.mem_append, List.nodup_append] at hnod
    obtain ⟨hni, hch, hts, hdisj⟩ := hnod
    push_neg at hni
    by_cases h : hi = i
    · subst h
      have ht : Task.mk hi c cr ch e s = t := by simpa [findTask] using hfind
      rw [removeCapture, if_pos rfl]
      simp [removeCapture_snd_none ts hi hni.2, ht]
    · rw [removeCapture, if_neg h]
      have hfind' : (match findTask ch i with
          | some found => some found
          | none => findTask ts i) = some t := by
        simpa [findTask, h] using hfind
      cases hf : findTask ch i with
      | none =>
        rw [hf] at hfind'
        have hfts : findTask ts i = some t := by simpa using hfind'
        simp [iht i t hts hfts]
      | some u =>
        rw [hf] at hfind'
        have hu : u = t := by simpa using hfind'
        subst hu
        have hinch : i ∈ idsOf ch := (findTask_isSome ch i).mp (by rw [hf]; rfl)
        have hnotts : i ∉ idsOf ts := fun hm => hdisj hinch hm
        simp [removeCapture_snd_none ts i hnotts, ihc i u hch hf]

/-- C6: for every forest and every id present in it, `remove` followed by
`find` yields not-found; the total node count drops by the removed node's
subtree size (by one when it had no children); and every id outside the
removed subtree is still present. (Ids are assumed unique, the spec's
standing assumption for forests.) -/
theorem remove_then_find_and_count (ts : List Task) (i : String) (t : Task)
    (hnod : (idsOf ts).Nodup) (hfind : findTask ts i = some t) :
    findTask (removeTask ts i) i = none
    ∧ countTasks (removeTask ts i) = countTasks ts - countTasks [t]
    ∧ (t.children = [] → countTasks (removeTask ts i) = countTasks ts - 1)
    ∧ ∀ j ∈ idsOf ts, j ∉ idsOf [t] → (findTask (removeTask ts i) j).isSome := by
  have hcount := countTasks_removeTask ts i t hnod hfind
  refine ⟨findTask_removeTask_self ts i, by omega, ?_, ?_⟩
  · intro hc
    have : countTasks [t] = 1 := by
      cases t with
      | mk a b c ch d f =>
        simp only [Task.children] at hc
        subst hc
        simp [countTasks]
    omega
  · intro j hj hjt
    exact (findTask_isSome _ j).mpr (idsOf_removeTask_mem ts i t j hnod hfind hj hjt)

/-- Witness for C6 at a concrete forest: removing the subtree of "a"
(which contains child "b") from a three-node forest. -/
theorem remove_then_find_and_count_witness :
    findTask (removeTask
        [Task.mk "a" "" 0 [Task.mk "b" "" 0 [] none none] none none,
         Task.mk "c" "" 0 [] none none] "a") "a" = none
    ∧ countTasks (removeTask
        [Task.mk "a" "" 0 [Task.mk "b" "" 0 [] none none] none none,
         Task.mk "c" "" 0 [] none none] "a")
      = countTasks
        [Task.mk "a" "" 0 [Task.mk "b" "" 0 [] none none] none none,
         Task.mk "c" "" 0 [] none none]
        - countTasks [Task.mk "a" "" 0 [Task.mk "b" "" 0 [] none none] none none]
    ∧ ((Task.mk "a" "" 0 [Task.mk "b" "" 0 [] none none] none none).children = [] →
        countTasks (removeTask
          [Task.mk "a" "" 0 [Task.mk "b" "" 0 [] none none] none none,
           Task.mk "c" "" 0 [] none none] "a")
        = countTasks
          [Task.mk "a" "" 0 [Task.mk "b" "" 0 [] none none] none none,
           Task.mk "c" "" 0 [] none none] - 1)
    ∧ ∀ j ∈ idsOf
        [Task.mk "a" "" 0 [Task.mk "b" "" 0 [] none none] none none,
         Task.mk "c" "" 0 [] none none],
        j ∉ idsOf [Task.mk "a" "" 0 [Task.mk "b" "" 0 [] none none] none none] →
        (findTask (removeTask
          [Task.mk "a" "" 0 [Task.mk "b" "" 0 [] none none] none none,
           Task.mk "c" "" 0 [] none none] "a") j).isSome :=
  remove_then_find_and_count _ "a" _ (by simp [idsOf]) (by simp [findTask])

-- ---------------------------------------------------------------------------
-- C7: YAML import is guarded
-- ---------------------------------------------------------------------------

/-- C7: applying an import replaces the in-memory state wholesale only when
the text parses (to a truthy document); malformed text is rejected before it
can replace the state, and the original state is preserved unchanged. -/
theorem import_apply_guarded (load : String → Except String Yaml) (state : Yaml) (text : String) :
    (parseYaml load text = none → handleApply load state text = (state, false))
    ∧ (∀ v, parseYaml load text = some v → v.truthy = false →
        handleApply load state text = (state, false))
    ∧ ((handleApply load state text).fst ≠ state →
        ∃ v, parseYaml load text = some v ∧ v.truthy = true
          ∧ handleApply load state text = (v, true)) := by
  refine ⟨?_, ?_, ?_⟩
  · intro h
    simp [handleApply, h]
  · intro v hv htr
    simp [handleApply, hv, htr]
  · intro hne
    cases hp : parseYaml load text with
    | none => simp [handleApply, hp] at hne
    | some v =>
      cases htr : v.truthy with
      | false => simp [handleApply, hp, htr] at hne
      | true => exact ⟨v, rfl, htr, by simp [handleApply, hp, htr]⟩

/-- A stand-in for the external `js-yaml` loader, used only to witness C7:
one well-formed text, everything else throws. -/
def loadStub : String → Except String Yaml :=
  fun s => if s = "projects: []" then .ok (.obj [("projects", .arr [])]) else .error "bad"

/-- Witness for C7: malformed text leaves the state untouched. -/
theorem import_apply_guarded_witness :
    handleApply loadStub (.str "orig") ":::bad:::" = (.str "orig", false) :=
  (import_apply_guarded loadStub (.str "orig") ":::bad:::").1 (by simp [parseYaml, loadStub])

-- ---------------------------------------------------------------------------
-- C10: deleteProject keeps the active project valid
-- ---------------------------------------------------------------------------

theorem deleteProject_eq_nil (d : AppData) (pid : String)
    (h : d.projects.filter (fun p => p.id ≠ pid) = []) : deleteProject d pid = d := by
  unfold deleteProject
  rw [h]

theorem deleteProject_eq_cons (d : AppData) (pid : String) (r : Project) (rs : List Project)
    (h : d.projects.filter (fun p => p.id ≠ pid) = r :: rs) :
    deleteProject d pid =
      { d with projects := r :: rs,
               activeProjectId :=
                 if d.activeProjectId = some pid then some r.id else d.activeProjectId } := by
  unfold deleteProject
  rw [h]

/-- C10: `deleteProject` is a no-op when the addressed project is the only
one; otherwise exactly the addressed project is removed, and if it was
active, `activeProjectId` moves to the first remaining project — so a valid
`activeProjectId` still names an existing project afterwards. -/
theorem deleteProject_claims (d : AppData) (pid : String) :
    (∀ p, d.projects = [p] → pid = p.id → deleteProject d pid = d)
    ∧ ((∃ q ∈ d.projects, q.id ≠ pid) →
        (deleteProject d pid).projects = d.projects.filter (fun p => p.id ≠ pid)
        ∧ (∀ q ∈ (deleteProject d pid).projects, q.id ≠ pid)
        ∧ ∀ q ∈ d.projects, q.id ≠ pid → q ∈ (deleteProject d pid).projects)
    ∧ ((∃ q ∈ d.projects, q.id ≠ pid) → d.activeProjectId = some pid →
        ∃ r rs, d.projects.filter (fun p => p.id ≠ pid) = r :: rs
          ∧ (deleteProject d pid).activeProjectId = some r.id)
    ∧ ((∃ q ∈ d.projects, some q.id = d.activeProjectId) →
        ∃ q ∈ (deleteProject d pid).projects,
          some q.id = (deleteProject d pid).activeProjectId) := by
  have hmem : ∀ q, q ∈ d.projects → q.id ≠ pid → q ∈ d.projects.filter (fun p => p.id ≠ pid) := by
    intro q hq hne
    simp [List.mem_filter, hq, hne]
  refine ⟨?_, ?_, ?_, ?_⟩
  · intro p hproj hpid
    subst hpid
    apply deleteProject_eq_nil
    rw [hproj]
    simp
  · intro ⟨q, hq, hne⟩
    have hqf := hmem q hq hne
    cases hrem : d.projects.filter (fun p => p.id ≠ pid) with
    | nil => rw [hrem] at hqf; cases hqf
    | cons r rs =>
      rw [deleteProject_eq_cons d pid r rs hrem]
      refine ⟨rfl, ?_, ?_⟩
      · intro x hx
        rw [← hrem] at hx
        simpa using (List.mem_filter.mp hx).2
      · intro x hx hxne
        rw [← hrem]
        exact hmem x hx hxne
  · intro ⟨q, hq, hne⟩ hact
    have hqf := hmem q hq hne
    cases hrem : d.projects.filter (fun p => p.id ≠ pid) with
    | nil => rw [hrem] at hqf; cases hqf
    | cons r rs =>
      rw [deleteProject_eq_cons d pid r rs hrem]
      exact ⟨r, rs, rfl, by simp [hact]⟩
  · intro ⟨q, hq, hact⟩
    cases hrem : d.projects.filter (fun p => p.id ≠ pid) with
    | nil =>
      rw [deleteProject_eq_nil d pid hrem]
      exact ⟨q, hq, hact⟩
    | cons r rs =>
      rw [deleteProject_eq_cons d pid r rs hrem]
      by_cases hc : d.activeProjectId = some pid
      · exact ⟨r, by simp, by simp [hc]⟩
      · have hqne : q.id ≠ pid := by
          intro hqe
          apply hc
          rw [← hact, hqe]
        have hqf := hmem q hq hqne
        rw [hrem] at hqf
        exact ⟨q, hqf, by simp [hc, hact]⟩

/-- Two bare projects used by concrete witnesses. -/
def emptyCols : ColMap := ⟨[], [], [], []⟩

def projA : Project := ⟨"pA", "A", "", 3, emptyCols⟩

def projB : Project := ⟨"pB", "B", "", 3, emptyCols⟩

/-- Witness for C10: deleting the active project of a two-project list. -/
theorem deleteProject_claims_witness :
    (deleteProject ⟨[projA, projB], some "pA", .light⟩ "pA").projects
        = [projA, projB].filter (fun p => p.id ≠ "pA")
    ∧ (∀ q ∈ (deleteProject ⟨[projA, projB], some "pA", .light⟩ "pA").projects, q.id ≠ "pA")
    ∧ (∀ q ∈ [projA, projB], q.id ≠ "pA" →
        q ∈ (deleteProject ⟨[projA, projB], some "pA", .light⟩ "pA").projects) :=
  (deleteProject_claims ⟨[projA, projB], some "pA", .light⟩ "pA").2.1
    ⟨projB, by simp, by simp [projB, Project.id]⟩

-- ---------------------------------------------------------------------------
-- C9: save scheduler serializes saves
-- ---------------------------------------------------------------------------

/-- C9: the save scheduler never has more than one outstanding save; a save
requested while one is in-flight only sets the pending flag; once the
in-flight save resolves with a pending request, the retrigger is scheduled,
and when it fires in the idle state it issues exactly one new save carrying
the then-latest data (clearing the pending flag and the schedule). -/
theorem save_scheduler_serialized :
    (∀ evs : List SaveEv, (saveRun evs).inFlight.length ≤ 1)
    ∧ (∀ s : SaveState, s.isSaving = true →
        saveStep s .request = { s with pendingSave := true })
    ∧ (∀ s : SaveState, s.isSaving = true → s.inFlight ≠ [] → s.pendingSave = true →
        (saveStep s .resolve).isSaving = false
        ∧ (saveStep s .resolve).retriggerScheduled = true)
    ∧ (∀ s : SaveState, s.retriggerScheduled = true → s.isSaving = false →
        saveStep s .retrigger
          = { s with isSaving := true, pendingSave := false,
                     inFlight := s.inFlight ++ [s.latest], retriggerScheduled := false }) := by
  refine ⟨?_, ?_, ?_, ?_⟩
  · intro evs
    exact (saveInv_run evs).1
  · intro s hs
    simp [saveStep, doSaveStep, hs]
  · intro s hs hf hp
    cases hflight : s.inFlight with
    | nil => exact absurd hflight hf
    | cons x rest => simp [saveStep, hflight, hp]
  · intro s hr hs
    simp only [saveStep, hr, if_true]
    simp [doSaveStep, hs]

/-- Witness for C9: from a state with one in-flight save and a pending
request, resolving stops the save and schedules the retrigger. -/
theorem save_scheduler_serialized_witness :
    (saveStep ⟨true, true, [5], 7, false⟩ .resolve).isSaving = false
    ∧ (saveStep ⟨true, true, [5], 7, false⟩ .resolve).retriggerScheduled = true :=
  save_scheduler_serialized.2.2.1 ⟨true, true, [5], 7, false⟩ rfl (by simp) rfl

-- ---------------------------------------------------------------------------
-- C2: dropping onto self / own descendant
-- ---------------------------------------------------------------------------

/-- C2 counterexample: dropping the sole task of `todo` onto itself emits a
`none` drag state, yet the drag-end commit still acts — it removes the task
and appends it to `backlog`, changing the forest. -/
theorem self_drop_changes_forest :
    onDragOver ⟨[], [Task.mk "t1" "x" 5 [] none none], [], []⟩ ⟨"t1", some "t1", 0, 0⟩ = none
    ∧ onDragEnd ⟨[], [Task.mk "t1" "x" 5 [] none none], [], []⟩ 3 "t1" true none false "f"
        = some ⟨[Task.mk "t1" "x" 5 [] none none], [], [], []⟩
    ∧ (⟨[Task.mk "t1" "x" 5 [] none none], [], [], []⟩ : ColMap)
        ≠ ⟨[], [Task.mk "t1" "x" 5 [] none none], [], []⟩ := by
  refine ⟨?_, ?_, ?_⟩
  · simp [onDragOver, getRealId, strEndsWith, matchesAt, keyToCol]
  · simp [onDragEnd, allTasksOf, findParent, sourceColumnOf, removeCaptureCols, removeCapture,
      colGet, colSet, findTask]
  · simp [ColMap.mk.injEq]

/-- C2 (amended): when the final hover target is the dragged task itself or
one of its descendants the classifier does emit `none`; but the drag-end
commit on a `none` drag state (no modifier) is not a no-op: it removes the
dragged task from wherever it lives and appends it to the bottom of
`backlog`. -/
theorem cycle_drop_fallback :
    (∀ (cols : ColMap) (ev : DragOverEvent) (raw : String),
        ev.overId = some raw →
        (getRealId raw = ev.activeId
          ∨ isDescendant (allTasksOf cols) ev.activeId (getRealId raw) = true) →
        onDragOver cols ev = none)
    ∧ (∀ (cols : ColMap) (wip : Nat) (aid freshId : String) (tm : Task),
        (removeCaptureCols cols aid).snd = some tm →
        onDragEnd cols wip aid true none false freshId
          = some (colSet (removeCaptureCols cols aid).fst .backlog
              (colGet (removeCaptureCols cols aid).fst .backlog ++ [tm]))) := by
  constructor
  · intro cols ev raw hover hcyc
    rcases hcyc with h | h
    · simp [onDragOver, hover, h]
    · by_cases hself : ev.activeId = getRealId raw
      · simp [onDragOver, hover, hself]
      · simp [onDragOver, hover, hself, h]
  · intro cols wip aid freshId tm hcap
    simp [onDragEnd, hcap]

/-- Witness for C2 (amended): a self-drop of the sole `todo` task sends it
to `backlog`. -/
theorem cycle_drop_fallback_witness :
    onDragEnd ⟨[], [Task.mk "t1" "x" 5 [] none none], [], []⟩ 3 "t1" true none false "f"
      = some (colSet (removeCaptureCols ⟨[], [Task.mk "t1" "x" 5 [] none none], [], []⟩ "t1").fst
          .backlog
          (colGet (removeCaptureCols ⟨[], [Task.mk "t1" "x" 5 [] none none], [], []⟩ "t1").fst
              .backlog
            ++ [Task.mk "t1" "x" 5 [] none none])) :=
  cycle_drop_fallback.2 ⟨[], [Task.mk "t1" "x" 5 [] none none], [], []⟩ 3 "t1" "f"
    (Task.mk "t1" "x" 5 [] none none)
    (by simp [removeCaptureCols, removeCapture])

-- ---------------------------------------------------------------------------
-- C1: WIP admission
-- ---------------------------------------------------------------------------

/-- The §4.1 `remove` applied to every column. -/
def removeAllCols (cols : ColMap) (tid : String) : ColMap :=
  ⟨removeTask cols.backlog tid, removeTask cols.todo tid,
   removeTask cols.inProgress tid, removeTask cols.done tid⟩

theorem removeCaptureCols_fst (cols : ColMap) (tid : String) :
    (removeCaptureCols cols tid).fst = removeAllCols cols tid := by
  simp [removeCaptureCols, removeAllCols, removeCapture_fst]

theorem colIds_nodup_parts (cols : ColMap) (hnod : (colIds cols).Nodup) :
    (idsOf cols.backlog).Nodup ∧ (idsOf cols.todo).Nodup
    ∧ (idsOf cols.inProgress).Nodup ∧ (idsOf cols.done).Nodup
    ∧ (∀ x ∈ idsOf cols.backlog,
        x ∉ idsOf cols.todo ∧ x ∉ idsOf cols.inProgress ∧ x ∉ idsOf cols.done)
    ∧ (∀ x ∈ idsOf cols.todo, x ∉ idsOf cols.inProgress ∧ x ∉ idsOf cols.done)
    ∧ (∀ x ∈ idsOf cols.inProgress, x ∉ idsOf cols.done) := by
  rw [colIds, allTasksOf, idsOf_append, idsOf_append, idsOf_append] at hnod
  rw [List.nodup_append] at hnod
  obtain ⟨hbtp, hd, hdisj1⟩ := hnod
  rw [List.nodup_append] at hbtp
  obtain ⟨hbt, hp, hdisj2⟩ := hbtp
  rw [List.nodup_append] at hbt
  obtain ⟨hb, ht, hdisj3⟩ := hbt
  refine ⟨hb, ht, hp, hd, ?_, ?_, ?_⟩
  · intro x hx
    refine ⟨hdisj3 hx, ?_, ?_⟩
    · exact hdisj2 (List.mem_append_left _ hx)
    · exact hdisj1 (List.mem_append_left _ (List.mem_append_left _ hx))
  · intro x hx
    refine ⟨?_, ?_⟩
    · exact hdisj2 (List.mem_append_right _ hx)
    · exact hdisj1 (List.mem_append_left _ (List.mem_append_right _ hx))
  · intro x hx
    exact hdisj1 (List.mem_append_right _ hx)

theorem removeCaptureCols_snd (cols : ColMap) (tid : String) (t : Task)
    (hnod : (colIds cols).Nodup) (hfind : findTaskLastCols cols tid = some t) :
    (removeCaptureCols cols tid).snd = some t := by
  obtain ⟨hb, ht, hp, hd, hdb, hdt, hdp⟩ := colIds_nodup_parts cols hnod
  simp only [findTaskLastCols] at hfind
  cases hfd : findTask cols.done tid with
  | some u =>
    rw [hfd] at hfind
    have hu : u = t := by simpa using hfind
    subst hu
    have hmem : tid ∈ idsOf cols.done := (findTask_isSome _ _).mp (by rw [hfd]; rfl)
    have hnb : tid ∉ idsOf cols.backlog := fun hx => (hdb tid hx).2.2 hmem
    have hnt : tid ∉ idsOf cols.todo := fun hx => (hdt tid hx).2 hmem
    have hnp : tid ∉ idsOf cols.inProgress := fun hx => hdp tid hx hmem
    simp [removeCaptureCols, removeCapture_snd_none _ _ hnb, removeCapture_snd_none _ _ hnt,
      removeCapture_snd_none _ _ hnp, removeCapture_snd cols.done tid u hd hfd]
  | none =>
    rw [hfd] at hfind
    have hnd : tid ∉ idsOf cols.done := (findTask_eq_none _ _).mp hfd
    cases hfp : findTask cols.inProgress tid with
    | some u =>
      rw [hfp] at hfind
      have hu : u = t := by simpa using hfind
      subst hu
      have hmem : tid ∈ idsOf cols.inProgress := (findTask_isSome _ _).mp (by rw [hfp]; rfl)
      have hnb : tid ∉ idsOf cols.backlog := fun hx => (hdb tid hx).2.1 hmem
      have hnt : tid ∉ idsOf cols.todo := fun hx => (hdt tid hx).1 hmem
      simp [removeCaptureCols, removeCapture_snd_none _ _ hnb, removeCapture_snd_none _ _ hnt,
        removeCapture_snd_none _ _ hnd, removeCapture_snd cols.inProgress tid u hp hfp]
    | none =>
      rw [hfp] at hfind
      have hnp : tid ∉ idsOf cols.inProgress := (findTask_eq_none _ _).mp hfp
      cases hft : findTask cols.todo tid with
      | some u =>
        rw [hft] at hfind
        have hu : u = t := by simpa using hfind
        subst hu
        have hmem : tid ∈ idsOf cols.todo := (findTask_isSome _ _).mp (by rw [hft]; rfl)
        have hnb : tid ∉ idsOf cols.backlog := fun hx => (hdb tid hx).1 hmem
        simp [removeCaptureCols, removeCapture_snd_none _ _ hnb,
          removeCapture_snd_none _ _ hnp, removeCapture_snd_none _ _ hnd,
          removeCapture_snd cols.todo tid u ht hft]
      | none =>
        rw [hft] at hfind
        cases hfb : findTask cols.backlog tid with
        | some u =>
          rw [hfb] at hfind
          have hu : u = t := by simpa using hfind
          subst hu
          have hnt : tid ∉ idsOf cols.todo := (findTask_eq_none _ _).mp hft
          simp [removeCaptureCols, removeCapture_snd_none _ _ hnt,
            removeCapture_snd_none _ _ hnp, removeCapture_snd_none _ _ hnd,
            removeCapture_snd cols.backlog tid u hb hfb]
        | none =>
          rw [hfb] at hfind
          cases hfind

/-- C1 counterexample: with `wipLimit = 1` and one leaf already in
`in-progress`, the WIP formula is violated (`1 + 1 > 1`), yet the drag-end
commit into `in-progress` is not rejected — the columns change and the
task is appended. -/
theorem wip_dragend_not_rejected :
    countLeaves [Task.mk "t1" "x" 0 [] none none] + 1 > 1
    ∧ onDragEnd ⟨[], [Task.mk "t2" "y" 0 [] none none], [Task.mk "t1" "x" 0 [] none none], []⟩
        1 "t2" true (some ⟨.insert, "in-progress", some .bottom⟩) false "f"
        = some ⟨[], [], [Task.mk "t1" "x" 0 [] none none, Task.mk "t2" "y" 0 [] none none], []⟩
    ∧ (⟨[], [], [Task.mk "t1" "x" 0 [] none none, Task.mk "t2" "y" 0 [] none none], []⟩ : ColMap)
        ≠ ⟨[], [Task.mk "t2" "y" 0 [] none none], [Task.mk "t1" "x" 0 [] none none], []⟩ := by
  refine ⟨by simp [countLeaves], ?_, by simp [ColMap.mk.injEq]⟩
  simp [onDragEnd, allTasksOf, findParent, sourceColumnOf, removeCaptureCols,
    removeCapture, colGet, colSet, findTask, keyToCol]

/-- C1 (amended): the WIP admission rule is enforced by `moveToColumn` only:
there, a move into `in-progress` with
`countLeaves(in-progress) + incomingLeafContribution > wipLimit` is rejected
with the project unchanged, and an admissible move removes the task from
wherever it lives and appends it to the target column, changing nothing
else; the drag-end commit computes the same quantities but commits the drop
regardless (see the counterexample). -/
theorem wip_enforced_by_moveToColumn (p : Project) (tid : String) (t : Task)
    (hnod : (colIds p.columns).Nodup)
    (hfind : findTaskLastCols p.columns tid = some t) :
    (countLeaves p.columns.inProgress
        + (if t.children.isEmpty then 1 else countLeaves t.children) > p.wipLimit →
      moveToColumnProj p tid .inProgress = p)
    ∧ (∀ target : ColumnId,
        (target = .inProgress →
          countLeaves p.columns.inProgress
            + (if t.children.isEmpty then 1 else countLeaves t.children) ≤ p.wipLimit) →
        moveToColumnProj p tid target
          = { p with columns :=
                (colSet (removeAllCols p.columns tid) target
                  (colGet (removeAllCols p.columns tid) target ++ [t])) }) := by
  have hsnd := removeCaptureCols_snd p.columns tid t hnod hfind
  have hfst := removeCaptureCols_fst p.columns tid
  constructor
  · intro hblock
    simp only [moveToColumnProj, hfind]
    simp [hblock]
  · intro target hok
    cases target with
    | inProgress =>
      have hle := hok rfl
      have hnb : ¬ (countLeaves p.columns.inProgress
          + (if t.children.isEmpty then 1 else countLeaves t.children) > p.wipLimit) := by
        omega
      simp only [moveToColumnProj, hfind]
      simp [hnb, hsnd, hfst]
    | backlog =>
      simp only [moveToColumnProj, hfind]
      simp [hsnd, hfst]
    | todo =>
      simp only [moveToColumnProj, hfind]
      simp [hsnd, hfst]
    | done =>
      simp only [moveToColumnProj, hfind]
      simp [hsnd, hfst]

/-- Witness for C1 (amended): `wipLimit = 1`, one leaf already in
`in-progress`; `moveToColumn` rejects the second leaf, leaving the project
unchanged. -/
theorem wip_enforced_by_moveToColumn_witness :
    moveToColumnProj
        ⟨"p1", "P", "", 1,
          ⟨[], [Task.mk "t2" "y" 0 [] none none], [Task.mk "t1" "x" 0 [] none none], []⟩⟩
        "t2" .inProgress
      = ⟨"p1", "P", "", 1,
          ⟨[], [Task.mk "t2" "y" 0 [] none none], [Task.mk "t1" "x" 0 [] none none], []⟩⟩ :=
  (wip_enforced_by_moveToColumn
      ⟨"p1", "P", "", 1,
        ⟨[], [Task.mk "t2" "y" 0 [] none none], [Task.mk "t1" "x" 0 [] none none], []⟩⟩
      "t2" (Task.mk "t2" "y" 0 [] none none)
      (by simp [colIds, allTasksOf, idsOf])
      (by simp [findTaskLastCols, findTask])).1
    (by simp [countLeaves, Task.children])

-- ---------------------------------------------------------------------------
-- C3: grouped-duplicate scenario
-- ---------------------------------------------------------------------------

/-- The scenario forest: top-level `A` (id `a1`) holding children `B` (id
`b1`) and `C` (id `c1`) in `backlog`; `todo` empty. -/
def taskB : Task := .mk "b1" "B" 0 [] none none

def taskC : Task := .mk "c1" "C" 0 [] none none

def taskA : Task := .mk "a1" "A" 0 [taskB, taskC] none none

/-- C3 counterexample: the modifier-held drag of child `B` to the empty
`todo` column does create a grouped parent with `sourceId = a1`, but its
child is the original `B` itself (same id `b1`, not a duplicate) and
`backlog` is not unchanged: `B` is removed from `A`'s children. -/
theorem grouped_drag_moves_child :
    onDragEnd ⟨[taskA], [], [], []⟩ 3 "b1" true (some ⟨.insert, "todo", some .bottom⟩) true "f1"
      = some ⟨[Task.mk "a1" "A" 0 [taskC] none none],
              [Task.mk "f1" "A" 0 [taskB] none (some "a1")], [], []⟩
    ∧ [Task.mk "a1" "A" 0 [taskC] none none] ≠ [taskA] := by
  constructor
  · simp [onDragEnd, allTasksOf, taskA, taskB, taskC, findParent, sourceColumnOf,
      removeCaptureCols, removeCapture, colGet, colSet, findTask, keyToCol, groupInto,
      parentCopyOf, Task.sourceId, Task.id]
  · simp [taskA, taskB, taskC]

/-- C3 (amended): in the scenario the first modifier-held drag of `B` to the
empty `todo` produces one grouped parent with `sourceId = a1` whose single
child is the original `B` moved there (`backlog`'s `A` loses that child);
the second modifier-held drag of `A`'s other child `C` finds the existing
grouped parent via `sourceId == a1` and appends into its children instead of
creating a second parent copy. -/
theorem grouped_drag_scenario :
    onDragEnd ⟨[taskA], [], [], []⟩ 3 "b1" true (some ⟨.insert, "todo", some .bottom⟩) true "f1"
      = some ⟨[Task.mk "a1" "A" 0 [taskC] none none],
              [Task.mk "f1" "A" 0 [taskB] none (some "a1")], [], []⟩
    ∧ onDragEnd ⟨[Task.mk "a1" "A" 0 [taskC] none none],
                 [Task.mk "f1" "A" 0 [taskB] none (some "a1")], [], []⟩ 3 "c1" true
        (some ⟨.insert, "f1", some .bottom⟩) true "f2"
      = some ⟨[Task.mk "a1" "A" 0 [] none none],
              [Task.mk "f1" "A" 0 [taskB, taskC] (some true) (some "a1")], [], []⟩ := by
  constructor
  · simp [onDragEnd, allTasksOf, taskA, taskB, taskC, findParent, sourceColumnOf,
      removeCaptureCols, removeCapture, colGet, colSet, findTask, keyToCol, groupInto,
      parentCopyOf, Task.sourceId, Task.id]
  · simp [onDragEnd, allTasksOf, taskB, taskC, findParent, sourceColumnOf, removeCaptureCols,
      removeCapture, colGet, colSet, findTask, keyToCol, groupInto, parentCopyOf,
      handleAllColumns, handleOneColumn, Task.sourceId, Task.id]

-- ---------------------------------------------------------------------------
-- C5: hit-zone classification
-- ---------------------------------------------------------------------------

theorem zone_suffix_unique (s : String) :
    (strEndsWith s "-top" = true → strEndsWith s "-mid" = false ∧ strEndsWith s "-bot" = false)
    ∧ (strEndsWith s "-mid" = true → strEndsWith s "-top" = false ∧ strEndsWith s "-bot" = false)
    ∧ (strEndsWith s "-bot" = true → strEndsWith s "-top" = false ∧ strEndsWith s "-mid" = false) := by
  cases hrev : s.data.reverse with
  | nil => simp [strEndsWith, hrev, matchesAt]
  | cons c cs =>
    simp only [strEndsWith, hrev]
    refine ⟨?_, ?_, ?_⟩
    all_goals
      intro h
      simp only [matchesAt, String.data] at h ⊢
      rw [Bool.and_eq_true] at h
      obtain ⟨h1, _⟩ := h
      rw [decide_eq_true_eq] at h1
      subst h1
      constructor
      all_goals simp [matchesAt]

/-- C5 counterexample: hovering the dragged task's own top hit-zone emits
`none`, not `insert{top, task}` — the cycle suppression fires before the
zone mapping. -/
theorem zone_self_hover_suppressed :
    onDragOver ⟨[], [Task.mk "t1" "x" 5 [] none none], [], []⟩ ⟨"t1", some "t1-top", 0, 0⟩ = none
    ∧ (none : Option DragState) ≠ some ⟨.insert, "t1", some .top⟩ := by
  constructor
  · simp [onDragOver, getRealId, strEndsWith, matchesAt, removeFirstOcc, keyToCol,
      isDescendant, allTasksOf, findTask]
  · simp

/-- C5 (amended): for a drag-over whose hover target is one of a task's
three explicit hit-zones — provided the zone's task is neither the dragged
task itself nor one of its descendants (those hover targets are suppressed
to `none` first) and the raw id is not a column key — the emitted state is
`insert{top}` for the `-top` zone, `nest` for the `-mid` zone,
`insert{bottom}` for the `-bot` zone, as read off the zone suffix, not from
cursor geometry; any other non-column, non-zone target yields `nest{target}`. -/
theorem zone_classifier (cols : ColMap) (ev : DragOverEvent) (raw tid : String)
    (hover : ev.overId = some raw)
    (hreal : getRealId raw = tid)
    (hnself : tid ≠ ev.activeId)
    (hndesc : isDescendant (allTasksOf cols) ev.activeId tid = false)
    (hncol : keyToCol raw = none) :
    (strEndsWith raw "-top" = true → onDragOver cols ev = some ⟨.insert, tid, some .top⟩)
    ∧ (strEndsWith raw "-mid" = true → onDragOver cols ev = some ⟨.nest, tid, none⟩)
    ∧ (strEndsWith raw "-bot" = true → onDragOver cols ev = some ⟨.insert, tid, some .bottom⟩)
    ∧ (strEndsWith raw "-top" = false → strEndsWith raw "-mid" = false →
        strEndsWith raw "-bot" = false → onDragOver cols ev = some ⟨.nest, tid, none⟩) := by
  have hnself' : ¬ (ev.activeId = tid) := fun h => hnself h.symm
  refine ⟨?_, ?_, ?_, ?_⟩
  · intro htop
    simp [onDragOver, hover, hreal, hnself', hndesc, hncol, htop]
  · intro hmid
    obtain ⟨hnt, _⟩ := (zone_suffix_unique raw).2.1 hmid
    simp [onDragOver, hover, hreal, hnself', hndesc, hncol, hmid, hnt]
  · intro hbot
    obtain ⟨hnt, hnm⟩ := (zone_suffix_unique raw).2.2 hbot
    simp [onDragOver, hover, hreal, hnself', hndesc, hncol, hbot, hnt, hnm]
  · intro hnt hnm hnb
    simp [onDragOver, hover, hreal, hnself', hndesc, hncol, hnt, hnm, hnb]

/-- Witness for C5 (amended): hovering another task's `-mid` zone nests. -/
theorem zone_classifier_witness :
    onDragOver ⟨[], [Task.mk "t1" "x" 5 [] none none, Task.mk "t2" "y" 6 [] none none], [], []⟩
        ⟨"t1", some "t2-mid", 0, 0⟩
      = some ⟨.nest, "t2", none⟩ :=
  (zone_classifier ⟨[], [Task.mk "t1" "x" 5 [] none none, Task.mk "t2" "y" 6 [] none none], [], []⟩
      ⟨"t1", some "t2-mid", 0, 0⟩ "t2-mid" "t2" rfl
      (by simp [getRealId, strEndsWith, matchesAt, removeFirstOcc])
      (by simp)
      (by simp [isDescendant, allTasksOf, findTask, Task.children])
      (by simp [keyToCol])).2.1
    (by simp [strEndsWith, matchesAt])

-- ---------------------------------------------------------------------------
-- C8: cloneTask
-- ---------------------------------------------------------------------------

/-- The ids a counter-driven id supply mints: `genSeq gen n k` is
`[gen n, gen (n+1), …, gen (n+k-1)]`. -/
def genSeq (gen : Nat → String) : Nat → Nat → List String
  | _, 0 => []
  | n, k + 1 => gen n :: genSeq gen (n + 1) k

theorem genSeq_append (gen : Nat → String) :
    ∀ a n b, genSeq gen n (a + b) = genSeq gen n a ++ genSeq gen (n + a) b := by
  intro a
  induction a with
  | zero => intro n b; simp [genSeq]
  | succ a ih =>
    intro n b
    have h1 : a + 1 + b = (a + b) + 1 := by omega
    rw [h1]
    simp only [genSeq]
    rw [ih (n + 1) b]
    have h2 : n + 1 + a = n + (a + 1) := by omega
    rw [h2]
    simp [genSeq]

theorem mem_genSeq (gen : Nat → String) :
    ∀ k n x, x ∈ genSeq gen n k ↔ ∃ m, n ≤ m ∧ m < n + k ∧ x = gen m := by
  intro k
  induction k with
  | zero => intro n x; simp [genSeq]; omega
  | succ k ih =>
    intro n x
    simp only [genSeq, List.mem_cons, ih]
    constructor
    · rintro (rfl | ⟨m, h1, h2, rfl⟩)
      · exact ⟨n, le_refl n, by omega, rfl⟩
      · exact ⟨m, by omega, by omega, rfl⟩
    · rintro ⟨m, h1, h2, rfl⟩
      by_cases hm : m = n
      · subst hm; exact Or.inl rfl
      · exact Or.inr ⟨m, by omega, by omega, rfl⟩

theorem genSeq_nodup (gen : Nat → String) (hinj : Function.Injective gen) :
    ∀ k n, (genSeq gen n k).Nodup := by
  intro k
  induction k with
  | zero => intro n; simp [genSeq]
  | succ k ih =>
    intro n
    simp only [genSeq, List.nodup_cons]
    refine ⟨?_, ih (n + 1)⟩
    intro hmem
    obtain ⟨m, h1, _, heq⟩ := (mem_genSeq gen k (n + 1) (gen n)).mp hmem
    have := hinj heq
    omega

theorem deepCloneList_spec (gen : Nat → String) : ∀ ts, ∀ n,
    (deepCloneList gen ts n).snd = n + countTasks ts
    ∧ idsOf (deepCloneList gen ts n).fst = genSeq gen n (countTasks ts)
    ∧ contentsOf (deepCloneList gen ts n).fst = (contentsOf ts).map (fun c => c ++ " (Copy)")
    ∧ shapeOf (deepCloneList gen ts n).fst = shapeOf ts := by
  apply forest_ind
  · intro n
    simp [deepCloneList, countTasks, idsOf, genSeq, contentsOf, shapeOf]
  · intro i c cr ch e s ts ihc iht n
    obtain ⟨ihc1, ihc2, ihc3, ihc4⟩ := ihc (n + 1)
    obtain ⟨iht1, iht2, iht3, iht4⟩ := iht (n + 1 + countTasks ch)
    have hunfold : deepCloneList gen (Task.mk i c cr ch e s :: ts) n
        = ((Task.mk (gen n) (c ++ " (Copy)") cr (deepCloneList gen ch (n + 1)).fst e s)
            :: (deepCloneList gen ts ((deepCloneList gen ch (n + 1)).snd)).fst,
           (deepCloneList gen ts ((deepCloneList gen ch (n + 1)).snd)).snd) := by
      simp [deepCloneList, deepClone]
    rw [hunfold, ihc1]
    refine ⟨?_, ?_, ?_, ?_⟩
    · rw [iht1]
      simp [countTasks]
      omega
    · simp only [idsOf, ihc2, iht2, countTasks]
      have h1 : 1 + countTasks ch + countTasks ts = (countTasks ch + countTasks ts) + 1 := by omega
      rw [h1]
      simp only [genSeq]
      rw [genSeq_append gen (countTasks ch) (n + 1) (countTasks ts)]
    · simp only [contentsOf, ihc3, iht3, List.map_cons, List.map_append]
    · simp only [shapeOf, ihc4, iht4]

/-- C8: `cloneTask` on a project containing the task (top level or nested)
appends exactly one deep clone of that task's subtree — same shape, every
node's content suffixed with " (Copy)", all ids freshly minted and distinct
— at top level of the column holding the original, and leaves the original
column content and all other columns unchanged. (Ids unique, and the id
supply injective and disjoint from existing ids, as `nanoid` provides.) -/
theorem cloneTask_appends_clone (gen : Nat → String) (p : Project) (tid : String)
    (k : ColumnId) (t : Task)
    (hnod : (colIds p.columns).Nodup)
    (hfind : findTask (colGet p.columns k) tid = some t)
    (hfresh : ∀ n, gen n ∉ colIds p.columns)
    (hinj : Function.Injective gen) :
    ∃ c, (cloneTaskProj gen p tid).columns = colSet p.columns k (colGet p.columns k ++ [c])
      ∧ (cloneTaskProj gen p tid).id = p.id
      ∧ shapeOf [c] = shapeOf [t]
      ∧ contentsOf [c] = (contentsOf [t]).map (fun s => s ++ " (Copy)")
      ∧ (idsOf [c]).Nodup
      ∧ ∀ x ∈ idsOf [c], x ∉ colIds p.columns := by
  obtain ⟨hb, ht, hp, hd, hdb, hdt, hdp⟩ := colIds_nodup_parts p.columns hnod
  have hmem : tid ∈ idsOf (colGet p.columns k) :=
    (findTask_isSome _ _).mp (by rw [hfind]; rfl)
  have hsingle : ∀ ts n, deepCloneList gen ts n
      = ((deepCloneList gen ts n).fst, (deepCloneList gen ts n).snd) := by
    intro ts n
    rfl
  have hclone : deepCloneList gen [t] 0 = ([(deepClone gen t 0).fst], (deepClone gen t 0).snd) := by
    simp [deepCloneList]
  obtain ⟨_, hids0, hcont0, hshape0⟩ := deepCloneList_spec gen [t] 0
  rw [hclone] at hids0 hcont0 hshape0
  have hids : idsOf [(deepClone gen t 0).fst] = genSeq gen 0 (countTasks [t]) := hids0
  have hcont : contentsOf [(deepClone gen t 0).fst]
      = (contentsOf [t]).map (fun c => c ++ " (Copy)") := hcont0
  have hshape : shapeOf [(deepClone gen t 0).fst] = shapeOf [t] := hshape0
  refine ⟨(deepClone gen t 0).fst, ?_, ?_, hshape, hcont, ?_, ?_⟩
  · cases k with
    | backlog =>
      have hfind' : findTask p.columns.backlog tid = some t := by simpa [colGet] using hfind
      have hmem' : tid ∈ idsOf p.columns.backlog := by simpa [colGet] using hmem
      have hnt : tid ∉ idsOf p.columns.todo := fun hx => (hdb tid hmem').1 hx
      have hnp : tid ∉ idsOf p.columns.inProgress := fun hx => (hdb tid hmem').2.1 hx
      have hnd : tid ∉ idsOf p.columns.done := fun hx => (hdb tid hmem').2.2 hx
      simp [cloneTaskProj, hfind', (findTask_eq_none _ _).mpr hnt,
        (findTask_eq_none _ _).mpr hnp, (findTask_eq_none _ _).mpr hnd, colSet, colGet]
    | todo =>
      have hfind' : findTask p.columns.todo tid = some t := by simpa [colGet] using hfind
      have hmem' : tid ∈ idsOf p.columns.todo := by simpa [colGet] using hmem
      have hnb : tid ∉ idsOf p.columns.backlog := fun hx => (hdb tid hx).1 hmem'
      have hnp : tid ∉ idsOf p.columns.inProgress := fun hx => (hdt tid hmem').1 hx
      have hnd : tid ∉ idsOf p.columns.done := fun hx => (hdt tid hmem').2 hx
      simp [cloneTaskProj, hfind', (findTask_eq_none _ _).mpr hnb,
        (findTask_eq_none _ _).mpr hnp, (findTask_eq_none _ _).mpr hnd, colSet, colGet]
    | inProgress =>
      have hfind' : findTask p.columns.inProgress tid = some t := by simpa [colGet] using hfind
      have hmem' : tid ∈ idsOf p.columns.inProgress := by simpa [colGet] using hmem
      have hnb : tid ∉ idsOf p.columns.backlog := fun hx => (hdb tid hx).2.1 hmem'
      have hnt : tid ∉ idsOf p.columns.todo := fun hx => (hdt tid hx).1 hmem'
      have hnd : tid ∉ idsOf p.columns.done := fun hx => hdp tid hmem' hx
      simp [cloneTaskProj, hfind', (findTask_eq_none _ _).mpr hnb,
        (findTask_eq_none _ _).mpr hnt, (findTask_eq_none _ _).mpr hnd, colSet, colGet]
    | done =>
      have hfind' : findTask p.columns.done tid = some t := by simpa [colGet] using hfind
      have hmem' : tid ∈ idsOf p.columns.done := by simpa [colGet] using hmem
      have hnb : tid ∉ idsOf p.columns.backlog := fun hx => (hdb tid hx).2.2 hmem'
      have hnt : tid ∉ idsOf p.columns.todo := fun hx => (hdt tid hx).2 hmem'
      have hnp : tid ∉ idsOf p.columns.inProgress := fun hx => hdp tid hx hmem'
      simp [cloneTaskProj, hfind', (findTask_eq_none _ _).mpr hnb,
        (findTask_eq_none _ _).mpr hnt, (findTask_eq_none _ _).mpr hnp, colSet, colGet]
  · simp only [cloneTaskProj]
    split
    · rfl
    · rfl
  · rw [hids]
    exact genSeq_nodup gen hinj _ 0
  · intro x hx
    rw [hids] at hx
    obtain ⟨m, _, _, rfl⟩ := (mem_genSeq gen _ 0 x).mp hx
    exact hfresh m

/-- A concrete injective id supply disjoint from the ids `"a1"`, `"b1"`
used by the C8 witness: `n` copies of `'x'`. -/
def genX : Nat → String := fun n => String.mk (List.replicate n 'x')

theorem genX_injective : Function.Injective genX := by
  intro a b h
  have hd := congrArg String.data h
  simp only [genX] at hd
  have := congrArg List.length hd
  simpa using this

/-- Witness for C8: cloning the nested task `b1`. -/
theorem cloneTask_appends_clone_witness :
    ∃ c, (cloneTaskProj genX
          ⟨"p1", "P", "", 3,
            ⟨[Task.mk "a1" "A" 0 [Task.mk "b1" "B" 0 [] none none] none none], [], [], []⟩⟩
          "b1").columns
        = colSet ⟨[Task.mk "a1" "A" 0 [Task.mk "b1" "B" 0 [] none none] none none], [], [], []⟩
            .backlog
            (colGet ⟨[Task.mk "a1" "A" 0 [Task.mk "b1" "B" 0 [] none none] none none], [], [], []⟩
                .backlog
              ++ [c])
      ∧ (cloneTaskProj genX
          ⟨"p1", "P", "", 3,
            ⟨[Task.mk "a1" "A" 0 [Task.mk "b1" "B" 0 [] none none] none none], [], [], []⟩⟩
          "b1").id = "p1"
      ∧ shapeOf [c] = shapeOf [Task.mk "b1" "B" 0 [] none none]
      ∧ contentsOf [c] = (contentsOf [Task.mk "b1" "B" 0 [] none none]).map (fun s => s ++ " (Copy)")
      ∧ (idsOf [c]).Nodup
      ∧ ∀ x ∈ idsOf [c],
          x ∉ colIds ⟨[Task.mk "a1" "A" 0 [Task.mk "b1" "B" 0 [] none none] none none], [], [], []⟩ :=
  cloneTask_appends_clone genX
    ⟨"p1", "P", "", 3,
      ⟨[Task.mk "a1" "A" 0 [Task.mk "b1" "B" 0 [] none none] none none], [], [], []⟩⟩
    "b1" .backlog (Task.mk "b1" "B" 0 [] none none)
    (by simp [colIds, allTasksOf, idsOf])
    (by simp [colGet, findTask])
    (by
      intro n hmem
      have hcolids :
          colIds ⟨[Task.mk "a1" "A" 0 [Task.mk "b1" "B" 0 [] none none] none none], [], [], []⟩
            = ["a1", "b1"] := by
        simp [colIds, allTasksOf, idsOf]
      rw [hcolids] at hmem
      simp only [List.mem_cons, List.not_mem_nil, or_false] at hmem
      rcases hmem with h | h
      · have hd := congrArg String.data h
        simp only [genX] at hd
        have hmm : 'a' ∈ List.replicate n 'x' := by rw [hd]; simp
        have := List.eq_of_mem_replicate hmm
        simp at this
      · have hd := congrArg String.data h
        simp only [genX] at hd
        have hmm : 'b' ∈ List.replicate n 'x' := by rw [hd]; simp
        have := List.eq_of_mem_replicate hmm
        simp at this)
    genX_injective

-- ---------------------------------------------------------------------------
-- C4: duplicate of a top-level task
-- ---------------------------------------------------------------------------

theorem occurs_append_left {x : Task} (bs : List Task) {as : List Task} (h : Occurs x as) :
    Occurs x (as ++ bs) := by
  cases h with
  | here hm => exact .here (List.mem_append_left bs hm)
  | inside hm hc => exact .inside (List.mem_append_left bs hm) hc

theorem occurs_append_right {x : Task} (as : List Task) {bs : List Task} (h : Occurs x bs) :
    Occurs x (as ++ bs) := by
  cases h with
  | here hm => exact .here (List.mem_append_right as hm)
  | inside hm hc => exact .inside (List.mem_append_right as hm) hc

theorem occurs_of_colGet (cols : ColMap) (k : ColumnId) (x : Task)
    (h : Occurs x (colGet cols k)) : Occurs x (allTasksOf cols) := by
  cases k with
  | backlog =>
    have h' : Occurs x cols.backlog := h
    exact occurs_append_left _ (occurs_append_left _ (occurs_append_left _ h'))
  | todo =>
    have h' : Occurs x cols.todo := h
    exact occurs_append_left _ (occurs_append_left _ (occurs_append_right _ h'))
  | inProgress =>
    have h' : Occurs x cols.inProgress := h
    exact occurs_append_left _ (occurs_append_right _ h')
  | done =>
    have h' : Occurs x cols.done := h
    exact occurs_append_right _ h' 

theorem colGet_colSet_same (cols : ColMap) (c : ColumnId) (l : List Task) :
    colGet (colSet cols c l) c = l := by
  cases c <;> rfl

theorem colGet_colSet_other (cols : ColMap) (c k : ColumnId) (l : List Task) (h : c ≠ k) :
    colGet (colSet cols c l) k = colGet cols k := by
  cases c <;> cases k <;> first
    | exact absurd rfl h
    | rfl

theorem nestOrInsert_found (tgt : String) (ty : DragType) (pos : Option DragPos) (tm : Task) :
    ∀ ts, (nestOrInsert tgt ty pos tm ts).snd = (findTask ts tgt).isSome := by
  apply forest_ind
  · simp [nestOrInsert, findTask]
  · intro i c cr ch e s ts ihc iht
    by_cases h : i = tgt
    · by_cases hty : ty = DragType.nest
      · simp [nestOrInsert, findTask, h, hty]
      · by_cases hp : pos = some .top
        · simp [nestOrInsert, findTask, h, hty, hp]
        · simp [nestOrInsert, findTask, h, hty, hp]
    · simp only [nestOrInsert, findTask, if_neg h]
      cases hf : findTask ch tgt with
      | some u =>
        have hrc : (nestOrInsert tgt ty pos tm ch).snd = true := by rw [ihc, hf]; rfl
        simp [hrc]
      | none =>
        have hrc : (nestOrInsert tgt ty pos tm ch).snd = false := by rw [ihc, hf]; rfl
        simp [hrc, iht]

theorem nestOrInsert_not_found (tgt : String) (ty : DragType) (pos : Option DragPos) (tm : Task) :
    ∀ ts, (nestOrInsert tgt ty pos tm ts).snd = false → (nestOrInsert tgt ty pos tm ts).fst = ts := by
  apply forest_ind
  · simp [nestOrInsert]
  · intro i c cr ch e s ts ihc iht hsnd
    by_cases h : i = tgt
    · exfalso
      simp only [nestOrInsert, if_pos h] at hsnd
      by_cases hty : ty = DragType.nest
      · simp [hty] at hsnd
      · by_cases hp : pos = some .top
        · simp [hty, hp] at hsnd
        · simp [hty, hp] at hsnd
    · simp only [nestOrInsert, if_neg h] at hsnd ⊢
      by_cases hrc : (nestOrInsert tgt ty pos tm ch).snd = true
      · simp [hrc] at hsnd
      · rw [Bool.not_eq_true] at hrc
        simp only [hrc, Bool.false_eq_true, if_false] at hsnd ⊢
        simp [iht hsnd]

theorem nestOrInsert_occurs (tgt : String) (ty : DragType) (pos : Option DragPos) (tm : Task) :
    ∀ ts, (nestOrInsert tgt ty pos tm ts).snd = true →
      Occurs tm (nestOrInsert tgt ty pos tm ts).fst := by
  apply forest_ind
  · simp [nestOrInsert]
  · intro i c cr ch e s ts ihc iht hsnd
    by_cases h : i = tgt
    · simp only [nestOrInsert, if_pos h]
      by_cases hty : ty = DragType.nest
      · simp only [hty, if_pos rfl]
        exact .inside (List.mem_cons_self _ _) (.here (by simp [Task.children]))
      · by_cases hp : pos = some .top
        · simp only [if_neg hty, hp, if_pos rfl]
          exact .here (List.mem_cons_self _ _)
        · simp only [if_neg hty, if_neg hp]
          exact .here (List.mem_cons_of_mem _ (List.mem_cons_self _ _))
    · simp only [nestOrInsert, if_neg h] at hsnd ⊢
      by_cases hrc : (nestOrInsert tgt ty pos tm ch).snd = true
      · simp only [hrc, if_pos rfl]
        exact .inside (List.mem_cons_self _ _) (by simpa [Task.children] using ihc hrc)
      · rw [Bool.not_eq_true] at hrc
        simp only [hrc, Bool.false_eq_true, if_false] at hsnd ⊢
        have hocc := iht hsnd
        cases hocc with
        | here hm => exact .here (List.mem_cons_of_mem _ hm)
        | inside hm hc => exact .inside (List.mem_cons_of_mem _ hm) hc

theorem nestOrInsert_preserves (tgt : String) (ty : DragType) (pos : Option DragPos) (tm : Task) :
    ∀ ts, ∀ x ∈ ts, tgt ∉ idsOf [x] → x ∈ (nestOrInsert tgt ty pos tm ts).fst := by
  apply forest_ind
  · simp
  · intro i c cr ch e s ts ihc iht x hx hids
    by_cases h : i = tgt
    · simp only [nestOrInsert, if_pos h]
      rcases List.mem_cons.mp hx with rfl | hx'
      · exfalso
        apply hids
        simp [idsOf, h]
      · by_cases hty : ty = DragType.nest
        · simp only [hty, if_pos rfl]
          exact List.mem_cons_of_mem _ hx'
        · by_cases hp : pos = some .top
          · simp only [if_neg hty, hp, if_pos rfl]
            exact List.mem_cons_of_mem _ (List.mem_cons_of_mem _ hx')
          · simp only [if_neg hty, if_neg hp]
            exact List.mem_cons_of_mem _ (List.mem_cons_of_mem _ hx')
    · simp only [nestOrInsert, if_neg h]
      by_cases hrc : (nestOrInsert tgt ty pos tm ch).snd = true
      · simp only [hrc, if_pos rfl]
        rcases List.mem_cons.mp hx with rfl | hx'
        · exfalso
          apply hids
          have htgt : tgt ∈ idsOf ch := by
            have hfound := nestOrInsert_found tgt ty pos tm ch
            rw [hrc] at hfound
            exact (findTask_isSome ch tgt).mp hfound.symm
          simp [idsOf, List.mem_append, htgt]
        · exact List.mem_cons_of_mem _ hx'
      · rw [Bool.not_eq_true] at hrc
        simp only [hrc, Bool.false_eq_true, if_false]
        rcases List.mem_cons.mp hx with rfl | hx'
        · exact List.mem_cons_self _ _
        · exact List.mem_cons_of_mem _ (iht x hx' hids)

theorem handleOne_noparent (cols : ColMap) (k : ColumnId) (tgt : String) (ty : DragType)
    (pos : Option DragPos) (tm : Task) (ctrl : Bool) (srcCol : Option ColumnId) (fid : String) :
    handleOneColumn cols k tgt ty pos tm ctrl none srcCol fid
      = if (findTask (colGet cols k) tgt).isSome
        then (colSet cols k (nestOrInsert tgt ty pos tm (colGet cols k)).fst, true)
        else (cols, false) := rfl

theorem handleOne_noparent_claims (cols : ColMap) (k : ColumnId) (tgt : String) (ty : DragType)
    (pos : Option DragPos) (tm : Task) (ctrl : Bool) (srcCol : Option ColumnId) (fid : String) :
    ((handleOneColumn cols k tgt ty pos tm ctrl none srcCol fid).snd = true →
      Occurs tm (allTasksOf (handleOneColumn cols k tgt ty pos tm ctrl none srcCol fid).fst))
    ∧ ((handleOneColumn cols k tgt ty pos tm ctrl none srcCol fid).snd = false →
      (handleOneColumn cols k tgt ty pos tm ctrl none srcCol fid).fst = cols)
    ∧ (∀ k' x, x ∈ colGet cols k' → tgt ∉ idsOf [x] →
      x ∈ colGet (handleOneColumn cols k tgt ty pos tm ctrl none srcCol fid).fst k') := by
  rw [handleOne_noparent]
  by_cases hf : (findTask (colGet cols k) tgt).isSome = true
  · simp only [hf, if_true]
    refine ⟨?_, ?_, ?_⟩
    · intro _
      have hsnd : (nestOrInsert tgt ty pos tm (colGet cols k)).snd = true := by
        rw [nestOrInsert_found]
        exact hf
      have hocc := nestOrInsert_occurs tgt ty pos tm (colGet cols k) hsnd
      apply occurs_of_colGet _ k
      rw [colGet_colSet_same]
      exact hocc
    · intro hcontra
      simp at hcontra
    · intro k' x hx hnid
      by_cases hk : k = k'
      · subst hk
        rw [colGet_colSet_same]
        exact nestOrInsert_preserves tgt ty pos tm (colGet cols k) x hx hnid
      · rw [colGet_colSet_other _ _ _ _ hk]
        exact hx
  · rw [Bool.not_eq_true] at hf
    simp only [hf, Bool.false_eq_true, if_false]
    refine ⟨by simp, by simp, ?_⟩
    intro k' x hx _
    exact hx

theorem handleAll_noparent_claims (cols : ColMap) (tgt : String) (ty : DragType)
    (pos : Option DragPos) (tm : Task) (ctrl : Bool) (srcCol : Option ColumnId) (fid : String) :
    ((handleAllColumns cols tgt ty pos tm ctrl none srcCol fid).snd = true →
      Occurs tm (allTasksOf (handleAllColumns cols tgt ty pos tm ctrl none srcCol fid).fst))
    ∧ ((handleAllColumns cols tgt ty pos tm ctrl none srcCol fid).snd = false →
      (handleAllColumns cols tgt ty pos tm ctrl none srcCol fid).fst = cols)
    ∧ (∀ k' x, x ∈ colGet cols k' → tgt ∉ idsOf [x] →
      x ∈ colGet (handleAllColumns cols tgt ty pos tm ctrl none srcCol fid).fst k') := by
  by_cases h1 : (handleOneColumn cols .backlog tgt ty pos tm ctrl none srcCol fid).snd = true
  · have heq : handleAllColumns cols tgt ty pos tm ctrl none srcCol fid
        = handleOneColumn cols .backlog tgt ty pos tm ctrl none srcCol fid := by
      simp [handleAllColumns, h1]
    rw [heq]
    exact handleOne_noparent_claims cols .backlog tgt ty pos tm ctrl srcCol fid
  · have hc1 := (handleOne_noparent_claims cols .backlog tgt ty pos tm ctrl srcCol fid).2.1
      (Bool.not_eq_true _ |>.mp h1)
    by_cases h2 : (handleOneColumn
        (handleOneColumn cols .backlog tgt ty pos tm ctrl none srcCol fid).fst
        .todo tgt ty pos tm ctrl none srcCol fid).snd = true
    · have heq : handleAllColumns cols tgt ty pos tm ctrl none srcCol fid
          = handleOneColumn cols .todo tgt ty pos tm ctrl none srcCol fid := by
        rw [hc1] at h2
        simp [handleAllColumns, h1, hc1, h2]
      rw [heq]
      exact handleOne_noparent_claims cols .todo tgt ty pos tm ctrl srcCol fid
    · rw [hc1] at h2
      have hc2 := (handleOne_noparent_claims cols .todo tgt ty pos tm ctrl srcCol fid).2.1
        (Bool.not_eq_true _ |>.mp h2)
      by_cases h3 : (handleOneColumn cols .inProgress tgt ty pos tm ctrl none srcCol fid).snd = true
      · have heq : handleAllColumns cols tgt ty pos tm ctrl none srcCol fid
            = handleOneColumn cols .inProgress tgt ty pos tm ctrl none srcCol fid := by
          simp [handleAllColumns, h1, hc1, h2, hc2, h3]
        rw [heq]
        exact handleOne_noparent_claims cols .inProgress tgt ty pos tm ctrl srcCol fid
      · have hc3 := (handleOne_noparent_claims cols .inProgress tgt ty pos tm ctrl srcCol fid).2.1
          (Bool.not_eq_true _ |>.mp h3)
        have heq : handleAllColumns cols tgt ty pos tm ctrl none srcCol fid
            = handleOneColumn cols .done tgt ty pos tm ctrl none srcCol fid := by
          simp [handleAllColumns, h1, hc1, h2, hc2, h3, hc3]
        rw [heq]
        exact handleOne_noparent_claims cols .done tgt ty pos tm ctrl srcCol fid

theorem mem_colSet_append (cols : ColMap) (c k : ColumnId) (x d : Task)
    (hx : x ∈ colGet cols k) :
    x ∈ colGet (colSet cols c (colGet cols c ++ [d])) k := by
  by_cases hck : c = k
  · subst hck
    rw [colGet_colSet_same]
    exact List.mem_append_left _ hx
  · rw [colGet_colSet_other _ _ _ _ hck]
    exact hx

theorem mem_colSet_cons (cols : ColMap) (c k : ColumnId) (x d : Task)
    (hx : x ∈ colGet cols k) :
    x ∈ colGet (colSet cols c (d :: colGet cols c)) k := by
  by_cases hck : c = k
  · subst hck
    rw [colGet_colSet_same]
    exact List.mem_cons_of_mem _ hx
  · rw [colGet_colSet_other _ _ _ _ hck]
    exact hx

theorem occurs_colSet_append (cols : ColMap) (c : ColumnId) (d : Task) :
    Occurs d (allTasksOf (colSet cols c (colGet cols c ++ [d]))) := by
  apply occurs_of_colGet _ c
  rw [colGet_colSet_same]
  exact .here (List.mem_append_right _ (List.mem_cons_self _ _))

theorem occurs_colSet_cons (cols : ColMap) (c : ColumnId) (d : Task) :
    Occurs d (allTasksOf (colSet cols c (d :: colGet cols c))) := by
  apply occurs_of_colGet _ c
  rw [colGet_colSet_same]
  exact .here (List.mem_cons_self _ _)

theorem duplicateOf_fields (fid : String) (t : Task) :
    (duplicateOf fid t).id = fid ∧ (duplicateOf fid t).children = []
    ∧ (duplicateOf fid t).content = t.content ∧ (duplicateOf fid t).createdAt = t.createdAt
    ∧ (duplicateOf fid t).isExpanded = t.isExpanded
    ∧ (duplicateOf fid t).sourceId = some (t.sourceId.getD t.id) := by
  cases t with
  | mk i c cr ch e s =>
    cases s <;>
      simp [duplicateOf, Task.id, Task.children, Task.content, Task.createdAt,
        Task.isExpanded, Task.sourceId]

theorem onDragEnd_dup_eq (cols : ColMap) (wip : Nat) (aid fid : String) (t : Task)
    (ds : Option DragState)
    (hparent : findParent (allTasksOf cols) aid = none)
    (hfind : findTask (allTasksOf cols) aid = some t) :
    onDragEnd cols wip aid true ds true fid
      = some (match ds with
          | none => colSet cols .backlog (colGet cols .backlog ++ [duplicateOf fid t])
          | some d =>
            match keyToCol d.targetId with
            | some c =>
              if d.position = some .top then colSet cols c (duplicateOf fid t :: colGet cols c)
              else colSet cols c (colGet cols c ++ [duplicateOf fid t])
            | none =>
              if (handleAllColumns cols d.targetId d.type d.position (duplicateOf fid t) true
                  none (sourceColumnOf cols aid) fid).snd
              then (handleAllColumns cols d.targetId d.type d.position (duplicateOf fid t) true
                  none (sourceColumnOf cols aid) fid).fst
              else colSet (handleAllColumns cols d.targetId d.type d.position (duplicateOf fid t)
                    true none (sourceColumnOf cols aid) fid).fst .backlog
                  (colGet (handleAllColumns cols d.targetId d.type d.position (duplicateOf fid t)
                      true none (sourceColumnOf cols aid) fid).fst .backlog
                    ++ [duplicateOf fid t])) := by
  cases ds with
  | none => simp [onDragEnd, hparent, hfind]
  | some d =>
    cases hkc : keyToCol d.targetId with
    | some c =>
      by_cases hp : d.position = some .top
      · simp [onDragEnd, hparent, hfind, hkc, hp]
      · simp [onDragEnd, hparent, hfind, hkc, hp]
    | none =>
      by_cases hs : (handleAllColumns cols d.targetId d.type d.position (duplicateOf fid t) true
          none (sourceColumnOf cols aid) fid).snd = true
      · simp [onDragEnd, hparent, hfind, hkc, hs]
      · rw [Bool.not_eq_true] at hs
        simp [onDragEnd, hparent, hfind, hkc, hs]

/-- C4: a modifier-held drag-end commit of a top-level task `T` always
commits a result containing a new task with the fresh id, `sourceId` equal
to `T.sourceId` when present and otherwise `T.id`, empty children, and the
same content and attributes as `T`; the original `T` stays in its column at
top level, unchanged. (When the drag state targets a task, that target must
not lie inside `T`'s own subtree — the classifier never emits such a target,
see C2.) -/
theorem duplicate_drop_top_level (cols : ColMap) (wip : Nat) (aid fid : String)
    (t : Task) (k : ColumnId) (ds : Option DragState)
    (hparent : findParent (allTasksOf cols) aid = none)
    (hfind : findTask (allTasksOf cols) aid = some t)
    (hk : t ∈ colGet cols k)
    (hds : ∀ d : DragState, ds = some d → keyToCol d.targetId = none → d.targetId ∉ idsOf [t]) :
    ∃ res, onDragEnd cols wip aid true ds true fid = some res
      ∧ Occurs (duplicateOf fid t) (allTasksOf res)
      ∧ t ∈ colGet res k
      ∧ (duplicateOf fid t).id = fid
      ∧ (duplicateOf fid t).children = []
      ∧ (duplicateOf fid t).content = t.content
      ∧ (duplicateOf fid t).createdAt = t.createdAt
      ∧ (duplicateOf fid t).isExpanded = t.isExpanded
      ∧ (duplicateOf fid t).sourceId = some (t.sourceId.getD t.id) := by
  obtain ⟨f1, f2, f3, f4, f5, f6⟩ := duplicateOf_fields fid t
  rw [onDragEnd_dup_eq cols wip aid fid t ds hparent hfind]
  cases ds with
  | none =>
    exact ⟨_, rfl, occurs_colSet_append cols .backlog _,
      mem_colSet_append cols .backlog k t _ hk, f1, f2, f3, f4, f5, f6⟩
  | some d =>
    cases hkc : keyToCol d.targetId with
    | some c =>
      by_cases hp : d.position = some .top
      · simp only [hkc, hp, if_pos rfl]
        exact ⟨_, rfl, occurs_colSet_cons cols c _,
          mem_colSet_cons cols c k t _ hk, f1, f2, f3, f4, f5, f6⟩
      · simp only [hkc, if_neg hp]
        exact ⟨_, rfl, occurs_colSet_append cols c _,
          mem_colSet_append cols c k t _ hk, f1, f2, f3, f4, f5, f6⟩
    | none =>
      have hnid := hds d rfl hkc
      obtain ⟨ho, hu, hpres⟩ := handleAll_noparent_claims cols d.targetId d.type d.position
        (duplicateOf fid t) true (sourceColumnOf cols aid) fid
      by_cases hs : (handleAllColumns cols d.targetId d.type d.position (duplicateOf fid t) true
          none (sourceColumnOf cols aid) fid).snd = true
      · simp only [hkc, hs, if_pos rfl]
        exact ⟨_, rfl, ho hs, hpres k t hk hnid, f1, f2, f3, f4, f5, f6⟩
      · rw [Bool.not_eq_true] at hs
        simp only [hkc, hs, Bool.false_eq_true, if_false]
        rw [hu hs]
        exact ⟨_, rfl, occurs_colSet_append cols .backlog _,
          mem_colSet_append cols .backlog k t _ hk, f1, f2, f3, f4, f5, f6⟩

/-- Witness for C4: Ctrl-dragging the top-level `todo` task onto the `done`
column duplicates it there, leaving the original in `todo`. -/
theorem duplicate_drop_top_level_witness :
    ∃ res, onDragEnd ⟨[], [Task.mk "t1" "x" 5 [] none none], [], []⟩ 3 "t1" true
        (some ⟨.insert, "done", some .bottom⟩) true "f1" = some res
      ∧ Occurs (duplicateOf "f1" (Task.mk "t1" "x" 5 [] none none)) (allTasksOf res)
      ∧ Task.mk "t1" "x" 5 [] none none ∈ colGet res .todo
      ∧ (duplicateOf "f1" (Task.mk "t1" "x" 5 [] none none)).id = "f1"
      ∧ (duplicateOf "f1" (Task.mk "t1" "x" 5 [] none none)).children = []
      ∧ (duplicateOf "f1" (Task.mk "t1" "x" 5 [] none none)).content
          = (Task.mk "t1" "x" 5 [] none none).content
      ∧ (duplicateOf "f1" (Task.mk "t1" "x" 5 [] none none)).createdAt
          = (Task.mk "t1" "x" 5 [] none none).createdAt
      ∧ (duplicateOf "f1" (Task.mk "t1" "x" 5 [] none none)).isExpanded
          = (Task.mk "t1" "x" 5 [] none none).isExpanded
      ∧ (duplicateOf "f1" (Task.mk "t1" "x" 5 [] none none)).sourceId
          = some ((Task.mk "t1" "x" 5 [] none none).sourceId.getD
              (Task.mk "t1" "x" 5 [] none none).id) :=
  duplicate_drop_top_level ⟨[], [Task.mk "t1" "x" 5 [] none none], [], []⟩ 3 "t1" "f1"
    (Task.mk "t1" "x" 5 [] none none) .todo (some ⟨.insert, "done", some .bottom⟩)
    (by simp [allTasksOf, findParent, Task.id])
    (by simp [allTasksOf, findTask])
    (by simp [colGet])
    (by intro d hd hkc; cases hd; simp [keyToCol] at hkc)

end Kanban
